import Mathlib

/-!
Verification of the cove data-review core (`src/cove/lib/common.py`) against its
natural-language specification.  The Python code is shallowly embedded: JSON
values become the inductive type `Json`, Python dicts become association lists
(insertion-ordered, as in CPython), generators become Lean lists, and code that
can raise becomes `Option`/`Except` valued.  Remote HTTP fetches are passed in
as explicit environment functions.
-/

/-- JSON values as handled by the Python code (dicts keep insertion order,
so objects are association lists; numbers in the claims are integers). -/
inductive Json where
  | null : Json
  | bool (b : Bool) : Json
  | num (n : Int) : Json
  | str (s : String) : Json
  | arr (elems : List Json) : Json
  | obj (entries : List (String × Json)) : Json
deriving Repr

mutual

/-- Structural Boolean equality on JSON values. -/
def jeq : Json → Json → Bool
  | .null, .null => true
  | .bool a, .bool b => a == b
  | .num a, .num b => a == b
  | .str a, .str b => a == b
  | .arr a, .arr b => jeqList a b
  | .obj a, .obj b => jeqEntries a b
  | _, _ => false

def jeqList : List Json → List Json → Bool
  | [], [] => true
  | a :: as, b :: bs => jeq a b && jeqList as bs
  | _, _ => false

def jeqEntries : List (String × Json) → List (String × Json) → Bool
  | [], [] => true
  | (k, v) :: as, (k', v') :: bs => k == k' && jeq v v' && jeqEntries as bs
  | _, _ => false

end

mutual

theorem jeq_refl : ∀ a, jeq a a = true
  | .null => rfl
  | .bool b => by simp [jeq]
  | .num n => by simp [jeq]
  | .str s => by simp [jeq]
  | .arr xs => by simp [jeq, jeqList_refl xs]
  | .obj kvs => by simp [jeq, jeqEntries_refl kvs]

theorem jeqList_refl : ∀ xs, jeqList xs xs = true
  | [] => rfl
  | x :: rest => by simp [jeqList, jeq_refl x, jeqList_refl rest]

theorem jeqEntries_refl : ∀ kvs, jeqEntries kvs kvs = true
  | [] => rfl
  | (k, v) :: rest => by simp [jeqEntries, jeq_refl v, jeqEntries_refl rest]

end

mutual

theorem jeq_eq : ∀ a b, jeq a b = true → a = b
  | .null, .null, _ => rfl
  | .bool a, .bool b, h => by simp [jeq] at h; rw [h]
  | .num a, .num b, h => by simp [jeq] at h; rw [h]
  | .str a, .str b, h => by simp [jeq] at h; rw [h]
  | .arr a, .arr b, h => by rw [jeqList_eq a b (by simpa [jeq] using h)]
  | .obj a, .obj b, h => by rw [jeqEntries_eq a b (by simpa [jeq] using h)]
  | .null, .bool _, h => by simp [jeq] at h
  | .null, .num _, h => by simp [jeq] at h
  | .null, .str _, h => by simp [jeq] at h
  | .null, .arr _, h => by simp [jeq] at h
  | .null, .obj _, h => by simp [jeq] at h
  | .bool _, .null, h => by simp [jeq] at h
  | .bool _, .num _, h => by simp [jeq] at h
  | .bool _, .str _, h => by simp [jeq] at h
  | .bool _, .arr _, h => by simp [jeq] at h
  | .bool _, .obj _, h => by simp [jeq] at h
  | .num _, .null, h => by simp [jeq] at h
  | .num _, .bool _, h => by simp [jeq] at h
  | .num _, .str _, h => by simp [jeq] at h
  | .num _, .arr _, h => by simp [jeq] at h
  | .num _, .obj _, h => by simp [jeq] at h
  | .str _, .null, h => by simp [jeq] at h
  | .str _, .bool _, h => by simp [jeq] at h
  | .str _, .num _, h => by simp [jeq] at h
  | .str _, .arr _, h => by simp [jeq] at h
  | .str _, .obj _, h => by simp [jeq] at h
  | .arr _, .null, h => by simp [jeq] at h
  | .arr _, .bool _, h => by simp [jeq] at h
  | .arr _, .num _, h => by simp [jeq] at h
  | .arr _, .str _, h => by simp [jeq] at h
  | .arr _, .obj _, h => by simp [jeq] at h
  | .obj _, .null, h => by simp [jeq] at h
  | .obj _, .bool _, h => by simp [jeq] at h
  | .obj _, .num _, h => by simp [jeq] at h
  | .obj _, .str _, h => by simp [jeq] at h
  | .obj _, .arr _, h => by simp [jeq] at h

theorem jeqList_eq : ∀ a b, jeqList a b = true → a = b
  | [], [], _ => rfl
  | [], _ :: _, h => by simp [jeqList] at h
  | _ :: _, [], h => by simp [jeqList] at h
  | a :: as, b :: bs, h => by
      have h' : jeq a b = true ∧ jeqList as bs = true := by simpa [jeqList] using h
      rw [jeq_eq a b h'.1, jeqList_eq as bs h'.2]

theorem jeqEntries_eq : ∀ a b, jeqEntries a b = true → a = b
  | [], [], _ => rfl
  | [], _ :: _, h => by simp [jeqEntries] at h
  | _ :: _, [], h => by simp [jeqEntries] at h
  | (k, v) :: as, (k', v') :: bs, h => by
      have h' : (k == k') = true ∧ jeq v v' = true ∧ jeqEntries as bs = true := by
        simpa [jeqEntries, and_assoc] using h
      have hk : k = k' := by have := h'.1; simpa using this
      rw [hk, jeq_eq v v' h'.2.1, jeqEntries_eq as bs h'.2.2]

end

instance : DecidableEq Json := fun a b =>
  if h : jeq a b = true then isTrue (jeq_eq a b h)
  else isFalse (fun he => h (he ▸ jeq_refl a))

/-- First-match lookup in an association list, like Python `dict.get` on an
insertion-ordered dict with unique keys. -/
def alookup {α β : Type} [DecidableEq α] (k : α) : List (α × β) → Option β
  | [] => none
  | (k', v) :: rest => if k' = k then some v else alookup k rest

/-- Python truthiness (`bool(x)`) of a JSON value: `None`, `False`, `0`, `""`,
`[]` and `{}` are falsy, everything else truthy. -/
def Json.truthy : Json → Bool
  | .null => false
  | .bool b => b
  | .num n => n != 0
  | .str s => s != ""
  | .arr elems => !elems.isEmpty
  | .obj entries => !entries.isEmpty

/-- A single ASCII apostrophe, used when rendering Python strings. -/
def apos : String := String.singleton (Char.ofNat 39)

mutual

/-- Python `repr` of a JSON value (as used in jsonschema error messages). -/
def Json.pyRepr : Json → String
  | .null => "None"
  | .bool true => "True"
  | .bool false => "False"
  | .num n => toString n
  | .str s => apos ++ s ++ apos
  | .arr elems => "[" ++ ", ".intercalate (Json.pyReprList elems) ++ "]"
  | .obj entries => "\x7b" ++ ", ".intercalate (Json.pyReprEntries entries) ++ "\x7d"

def Json.pyReprList : List Json → List String
  | [] => []
  | x :: rest => Json.pyRepr x :: Json.pyReprList rest

def Json.pyReprEntries : List (String × Json) → List String
  | [] => []
  | (k, v) :: rest => (apos ++ k ++ apos ++ ": " ++ Json.pyRepr v) :: Json.pyReprEntries rest

end

/-- Python `str` of a JSON value (`str(1) = "1"`, `str("a") = "a"`). -/
def Json.pyStr : Json → String
  | .null => "None"
  | .bool true => "True"
  | .bool false => "False"
  | .num n => toString n
  | .str s => s
  | j => Json.pyRepr j

/-- A `jsonschema.exceptions.ValidationError` as produced by the overridden
validators: only the message matters to the claims about them. -/
structure VError where
  message : String
deriving DecidableEq, Repr

/-- Does a list of JSON values contain two equal elements? -/
def hasDupJson : List Json → Bool
  | [] => false
  | x :: rest => rest.contains x || hasDupJson rest

/-- Modelled from the spec: the standard Draft-4 `uniqueItems` checker of the
jsonschema dependency (saved by the source as `uniqueItemsValidator` before the
override replaces it): when `uniqueItems` is truthy and the instance is an
array with non-unique elements, it yields one error whose message is the
Python repr of the instance followed by " has non-unique elements". -/
def uniqueItemsValidator (ui : Bool) (inst : Json) : List VError :=
  match inst with
  | .arr elems =>
      if ui && hasDupJson elems then
        [⟨Json.pyRepr (.arr elems) ++ " has non-unique elements"⟩]
      else []
  | _ => []

/-- The `id` of an array item when it is usable for the dedup-by-id logic of
`unique_ids`: the item must be a dict carrying an `id` key whose value is
truthy and neither a list nor a dict (`if item_id and not isinstance(item_id,
list) and not isinstance(item_id, dict)` in the source; a non-dict item raises
AttributeError, caught and treated as `item_id = None`). -/
def itemUsableId (item : Json) : Option Json :=
  match item with
  | .obj entries =>
      match alookup "id" entries with
      | some v =>
          match v with
          | .arr _ => none
          | .obj _ => none
          | _ => if v.truthy then some v else none
      | none => none
  | _ => none

/-- Add to a list acting as an insertion-ordered Python set. -/
def setAdd (l : List Json) (v : Json) : List Json :=
  if v ∈ l then l else l ++ [v]

/-- The scanning loop of `unique_ids` over the array items: accumulates the
set of all ids and the set of non-unique ids; returns `none` as soon as an
item without a usable id is hit (the code then falls back to the original
`uniqueItems` validator). -/
def collectIds : List Json → List Json → List Json → Option (List Json)
  | [], _, nonUnique => some nonUnique
  | item :: rest, allIds, nonUnique =>
      match itemUsableId item with
      | some v =>
          collectIds rest (setAdd allIds v)
            (if v ∈ allIds then setAdd nonUnique v else nonUnique)
      | none => none

/-- The same scan expressed over the extracted id values only (used to state
claims; `collectIds` reduces to it when every item has a usable id). -/
def dupScan : List Json → List Json → List Json → List Json
  | [], _, nonUnique => nonUnique
  | v :: rest, allIds, nonUnique =>
      dupScan rest (setAdd allIds v)
        (if v ∈ allIds then setAdd nonUnique v else nonUnique)

/-- `unique_ids` (common.py:277): the cove override of the Draft-4
`uniqueItems` rule.  The insertion-ordered lists model the Python sets
`all_ids` and `non_unique_ids` (the spec notes the selection order from the
set is immaterial, only the cap at 3 matters). -/
def unique_ids (ui : Bool) (inst : Json) : List VError :=
  match inst with
  | .arr items =>
      if ui then
        match collectIds items [] [] with
        | none => uniqueItemsValidator ui (.arr items)
        | some nonUnique =>
            if nonUnique.isEmpty then []
            else
              [⟨"Non-unique ID Values (first 3 shown):  " ++
                ", ".intercalate ((nonUnique.take 3).map Json.pyStr)⟩]
      else []
  | _ => []

/-- `required_draft4` (common.py:303): the cove override of the Draft-4
`required` rule; one `ValidationError` per missing property, whose message is
the property name itself. -/
def required_draft4 (required : List String) (inst : Json) : List VError :=
  match inst with
  | .obj entries =>
      (required.filter (fun p => (alookup p entries).isNone)).map (fun p => ⟨p⟩)
  | _ => []

/-- Occurrence count of a JSON value in a list. -/
def countJ (v : Json) : List Json → Nat
  | [] => 0
  | x :: rest => (if x = v then 1 else 0) + countJ v rest

theorem countJ_pos_iff_mem (v : Json) (l : List Json) : 1 ≤ countJ v l ↔ v ∈ l := by
  induction l with
  | nil => simp [countJ]
  | cons x rest ih =>
      by_cases h : x = v
      · subst h; simp [countJ]
      · simp [countJ, h, ih, Ne.symm h]

theorem mem_setAdd (x v : Json) (l : List Json) :
    x ∈ setAdd l v ↔ x ∈ l ∨ x = v := by
  unfold setAdd
  split
  · next h =>
      constructor
      · intro hx; exact Or.inl hx
      · rintro (hx | rfl)
        · exact hx
        · exact h
  · simp

theorem mem_dupScan (x : Json) (ids allIds nonUnique : List Json) :
    x ∈ dupScan ids allIds nonUnique ↔
      x ∈ nonUnique ∨ (x ∈ allIds ∧ x ∈ ids) ∨ 2 ≤ countJ x ids := by
  induction ids generalizing allIds nonUnique with
  | nil => simp [dupScan, countJ]
  | cons v rest ih =>
      unfold dupScan
      rw [ih]
      by_cases hxv : x = v
      · subst hxv
        have hcount : countJ x (x :: rest) = 1 + countJ x rest := by simp [countJ]
        constructor
        · rintro (hnu | ⟨_, hr⟩ | hc)
          · by_cases hal : x ∈ allIds
            · simp only [if_pos hal] at hnu
              rw [mem_setAdd] at hnu
              rcases hnu with hnu | _
              · exact Or.inl hnu
              · exact Or.inr (Or.inl ⟨hal, List.mem_cons_self _ _⟩)
            · simp only [if_neg hal] at hnu
              exact Or.inl hnu
          · right; right
            rw [hcount]
            have := (countJ_pos_iff_mem x rest).mpr hr
            omega
          · right; right
            rw [hcount]; omega
        · rintro (hnu | ⟨hal, _⟩ | hc)
          · left
            by_cases hal : x ∈ allIds
            · simp only [if_pos hal]
              rw [mem_setAdd]
              exact Or.inl hnu
            · simpa only [if_neg hal]
          · left
            simp only [if_pos hal]
            rw [mem_setAdd]
            exact Or.inr rfl
          · rw [hcount] at hc
            by_cases hr : x ∈ rest
            · right; left
              exact ⟨(mem_setAdd x x allIds).mpr (Or.inr rfl), hr⟩
            · have hz : countJ x rest = 0 := by
                by_contra hnz
                exact hr ((countJ_pos_iff_mem x rest).mp (by omega))
              omega
      · have hcount : countJ x (v :: rest) = countJ x rest := by
          simp [countJ, Ne.symm hxv]
        have hnu' : (x ∈ if v ∈ allIds then setAdd nonUnique v else nonUnique) ↔
            x ∈ nonUnique := by
          split
          · rw [mem_setAdd]; simp [hxv]
          · exact Iff.rfl
        rw [hnu', mem_setAdd, hcount]
        simp [hxv]

theorem collectIds_eq_dupScan (items : List Json)
    (h : ∀ item ∈ items, (itemUsableId item).isSome) (allIds nonUnique : List Json) :
    collectIds items allIds nonUnique =
      some (dupScan (items.filterMap itemUsableId) allIds nonUnique) := by
  induction items generalizing allIds nonUnique with
  | nil => simp [collectIds, dupScan]
  | cons item rest ih =>
      have hitem := h item (List.mem_cons_self _ _)
      match hid : itemUsableId item with
      | some v =>
          simp only [collectIds, hid, List.filterMap_cons, dupScan]
          exact ih (fun i hi => h i (List.mem_cons_of_mem _ hi)) _ _
      | none => rw [hid] at hitem; simp at hitem

theorem collectIds_none_of_unusable (items : List Json)
    (h : ∃ item ∈ items, itemUsableId item = none) (allIds nonUnique : List Json) :
    collectIds items allIds nonUnique = none := by
  induction items generalizing allIds nonUnique with
  | nil => simp at h
  | cons item rest ih =>
      rcases h with ⟨i, hi, hnone⟩
      rcases List.mem_cons.mp hi with rfl | hmem
      · simp [collectIds, hnone]
      · match hid : itemUsableId item with
        | some v =>
            simp only [collectIds, hid]
            exact ih ⟨i, hmem, hnone⟩ _ _
        | none => simp [collectIds, hid]

/-- Claim C1: for an array in which every element is a dict carrying a usable
scalar `id` (truthy, not a list or dict), the `uniqueItems` override collects
all id values and, if any id value repeats, emits exactly one validation error
whose message lists at most the first 3 duplicate values; with no repeats it
emits nothing. -/
theorem claim_C1 (items : List Json)
    (h : ∀ item ∈ items, (itemUsableId item).isSome) :
    ((∃ v, 2 ≤ countJ v (items.filterMap itemUsableId)) →
       unique_ids true (.arr items) =
         [⟨"Non-unique ID Values (first 3 shown):  " ++
           ", ".intercalate
             (((dupScan (items.filterMap itemUsableId) [] []).take 3).map Json.pyStr)⟩] ∧
       ((dupScan (items.filterMap itemUsableId) [] []).take 3).length ≤ 3 ∧
       (∀ v ∈ (dupScan (items.filterMap itemUsableId) [] []).take 3,
          2 ≤ countJ v (items.filterMap itemUsableId))) ∧
    ((¬ ∃ v, 2 ≤ countJ v (items.filterMap itemUsableId)) →
       unique_ids true (.arr items) = []) := by
  have hc := collectIds_eq_dupScan items h [] []
  have hmem : ∀ x, x ∈ dupScan (items.filterMap itemUsableId) [] [] ↔
      2 ≤ countJ x (items.filterMap itemUsableId) := by
    intro x
    rw [mem_dupScan]
    simp
  constructor
  · intro ⟨v, hv⟩
    have hne : ¬ (dupScan (items.filterMap itemUsableId) [] []).isEmpty := by
      rw [List.isEmpty_iff]
      intro hemp
      have := (hmem v).mpr hv
      rw [hemp] at this
      simp at this
    refine ⟨?_, ?_, ?_⟩
    · simp only [unique_ids, if_pos rfl, hc]
      simp [hne]
    · exact List.length_take_le _ _
    · intro w hw
      exact (hmem w).mp (List.mem_of_mem_take hw)
  · intro hno
    have hemp : dupScan (items.filterMap itemUsableId) [] [] = [] := by
      by_contra hne
      rcases List.exists_mem_of_ne_nil _ hne with ⟨v, hv⟩
      exact hno ⟨v, (hmem v).mp hv⟩
    simp [unique_ids, hc, hemp]

/-- Witness for claim C1 at the spec example `[{"id":1},{"id":2},{"id":1}]`:
every element has a usable id, and the override yields exactly one error
listing `1`. -/
theorem claim_C1_witness :
    (∀ item ∈ [Json.obj [("id", Json.num 1)], Json.obj [("id", Json.num 2)],
               Json.obj [("id", Json.num 1)]], (itemUsableId item).isSome) ∧
    unique_ids true (.arr [Json.obj [("id", Json.num 1)], Json.obj [("id", Json.num 2)],
               Json.obj [("id", Json.num 1)]]) =
      [⟨"Non-unique ID Values (first 3 shown):  1"⟩] := by
  refine ⟨by decide, ?_⟩
  have h := (claim_C1 [Json.obj [("id", Json.num 1)], Json.obj [("id", Json.num 2)],
               Json.obj [("id", Json.num 1)]] (by decide)).1 ⟨Json.num 1, by decide⟩
  rw [h.1]
  decide

theorem itemUsableId_none_of_falsy (entries : List (String × Json)) (v : Json)
    (hv : alookup "id" entries = some v) (hf : v.truthy = false) :
    itemUsableId (.obj entries) = none := by
  cases v with
  | arr elems => simp [itemUsableId, hv]
  | obj kvs => simp [itemUsableId, hv]
  | null => simp [itemUsableId, hv, hf]
  | bool b => simp [itemUsableId, hv, hf]
  | num n => simp [itemUsableId, hv, hf]
  | str s => simp [itemUsableId, hv, hf]

theorem bracket_ne_nonunique (x s : String) :
    "[" ++ x ≠ "Non-unique ID Values" ++ s := by
  intro h
  have hd := congrArg String.data h
  rw [String.data_append, String.data_append] at hd
  have h1 : ("[" : String).data = ['['] := rfl
  have h2 : ("Non-unique ID Values" : String).data =
      ['N', 'o', 'n', '-', 'u', 'n', 'i', 'q', 'u', 'e', ' ', 'I', 'D', ' ',
       'V', 'a', 'l', 'u', 'e', 's'] := rfl
  rw [h1, h2] at hd
  simp at hd

/-- Claim C9 (implicit): for an array in which every element is a dict with an
`id` key but some element's id value is falsy (0, "", null, false, ...), the
`uniqueItems` override does not apply its dedup-by-id logic and instead falls
back to the standard Draft-4 `uniqueItems` semantics for that array, so
duplicate falsy ids are never reported via the "Non-unique ID Values"
message. -/
theorem claim_C9 (items : List Json)
    (h1 : ∀ item ∈ items, ∃ entries, item = Json.obj entries ∧
            (alookup "id" entries).isSome)
    (h2 : ∃ item ∈ items, ∃ entries v, item = Json.obj entries ∧
            alookup "id" entries = some v ∧ v.truthy = false) :
    unique_ids true (.arr items) = uniqueItemsValidator true (.arr items) ∧
    ∀ e ∈ unique_ids true (.arr items), ∀ s,
      e.message ≠ "Non-unique ID Values" ++ s := by
  rcases h2 with ⟨item, hmem, entries, v, rfl, hv, hf⟩
  have hnone : collectIds items [] [] = none :=
    collectIds_none_of_unusable items
      ⟨_, hmem, itemUsableId_none_of_falsy entries v hv hf⟩ [] []
  have hfall : unique_ids true (.arr items) = uniqueItemsValidator true (.arr items) := by
    simp [unique_ids, hnone]
  refine ⟨hfall, ?_⟩
  intro e he s
  rw [hfall] at he
  simp only [uniqueItemsValidator] at he
  by_cases hdup : (true && hasDupJson items) = true
  · rw [if_pos hdup] at he
    simp only [List.mem_singleton] at he
    subst he
    show Json.pyRepr (.arr items) ++ " has non-unique elements" ≠ _
    have : Json.pyRepr (.arr items) =
        "[" ++ (", ".intercalate (Json.pyReprList items) ++ "]") := by
      rw [Json.pyRepr, String.append_assoc]
    rw [this, String.append_assoc, String.append_assoc]
    exact bracket_ne_nonunique _ _
  · rw [if_neg hdup] at he
    simp at he

/-- Witness for claim C9 at `[{"id":0},{"id":0}]`: both ids are falsy, the
override falls back to the plain uniqueItems validator. -/
theorem claim_C9_witness :
    (∀ item ∈ [Json.obj [("id", Json.num 0)], Json.obj [("id", Json.num 0)]],
       ∃ entries, item = Json.obj entries ∧ (alookup "id" entries).isSome) ∧
    unique_ids true (.arr [Json.obj [("id", Json.num 0)], Json.obj [("id", Json.num 0)]]) =
      uniqueItemsValidator true
        (.arr [Json.obj [("id", Json.num 0)], Json.obj [("id", Json.num 0)]]) := by
  constructor
  · intro item hmem
    refine ⟨[("id", Json.num 0)], ?_, by decide⟩
    rcases List.mem_cons.mp hmem with rfl | hmem'
    · rfl
    · rcases List.mem_cons.mp hmem' with rfl | h
      · rfl
      · simp at h
  · exact (claim_C9 [Json.obj [("id", Json.num 0)], Json.obj [("id", Json.num 0)]]
      (by intro item hmem
          refine ⟨[("id", Json.num 0)], ?_, by decide⟩
          rcases List.mem_cons.mp hmem with rfl | hmem'
          · rfl
          · rcases List.mem_cons.mp hmem' with rfl | h
            · rfl
            · simp at h)
      ⟨Json.obj [("id", Json.num 0)], by decide, [("id", Json.num 0)], Json.num 0,
        rfl, by decide, by decide⟩).1

theorem filter_and_eq_singleton (l : List String) (p : String) (f : String → Bool)
    (hnd : l.Nodup) (hp : p ∈ l) (hf : f p = true) :
    (l.filter (fun q => f q && decide (q = p))).length = 1 := by
  induction l with
  | nil => simp at hp
  | cons a rest ih =>
      rcases List.nodup_cons.mp hnd with ⟨hna, hndr⟩
      by_cases hap : a = p
      · subst hap
        have hrest : rest.filter (fun q => f q && decide (q = a)) = [] := by
          rw [List.filter_eq_nil_iff]
          intro q hq
          simp only [Bool.and_eq_true, decide_eq_true_eq, not_and]
          intro _ hqe
          exact hna (hqe ▸ hq)
        simp [List.filter_cons, hf, hrest]
      · have hp' : p ∈ rest := by
          rcases List.mem_cons.mp hp with h | h
          · exact absurd h.symm hap
          · exact h
        simp only [List.filter_cons, decide_eq_false hap, Bool.and_false,
          Bool.false_eq_true, if_false]
        exact ih hndr hp'

/-- Claim C2: the overridden `required` rule yields exactly one validation
error per missing required property name, each error naming just that
property (never one combined error listing several properties). -/
theorem claim_C2 (required : List String) (entries : List (String × Json))
    (hnd : required.Nodup) :
    (∀ e ∈ required_draft4 required (.obj entries),
       e.message ∈ required ∧ (alookup e.message entries).isNone) ∧
    (∀ p ∈ required, (alookup p entries).isNone →
       ((required_draft4 required (.obj entries)).filter
          (fun e => decide (e.message = p))).length = 1) ∧
    required_draft4 required (.obj entries)
      = (required.filter (fun p => (alookup p entries).isNone)).map (fun p => ⟨p⟩) := by
  refine ⟨?_, ?_, rfl⟩
  · intro e he
    simp only [required_draft4, List.mem_map, List.mem_filter] at he
    rcases he with ⟨p, ⟨hpmem, hmiss⟩, rfl⟩
    exact ⟨hpmem, by simpa using hmiss⟩
  · intro p hp hmiss
    have hdef : required_draft4 required (.obj entries)
        = (required.filter (fun q => (alookup q entries).isNone)).map
            (fun q => VError.mk q) := rfl
    rw [hdef, List.filter_map, List.length_map]
    have hcomp : ((fun e => decide (e.message = p)) ∘ (fun q => VError.mk q))
        = fun q => decide (q = p) := by
      funext q
      rfl
    rw [hcomp, List.filter_filter]
    rw [show (fun a => decide (a = p) && (alookup a entries).isNone)
          = (fun q => (alookup q entries).isNone && decide (q = p)) from
        funext (fun a => Bool.and_comm _ _)]
    exact filter_and_eq_singleton required p
      (fun q => (alookup q entries).isNone) hnd hp hmiss

/-- Witness for claim C2 at the spec example: `{"a":1}` against required
`["a","b"]` yields exactly one error, for `b`. -/
theorem claim_C2_witness :
    (["a", "b"] : List String).Nodup ∧
    ((required_draft4 ["a", "b"] (.obj [("a", Json.num 1)])).filter
        (fun e => decide (e.message = "b"))).length = 1 ∧
    required_draft4 ["a", "b"] (.obj [("a", Json.num 1)]) = [⟨"b"⟩] := by
  refine ⟨by decide, ?_, by decide⟩
  exact (claim_C2 ["a", "b"] [("a", Json.num 1)] (by decide)).2.1 "b"
    (by decide) (by decide)

mutual

/-- `fields_present_generator` (common.py:316): yields one slash-joined path
per key present in the data; for list values it first recurses into each dict
element (under the same path), for dict values it first recurses into the
value, and in every case it then yields the key's own path. Non-dict input
yields nothing. -/
def fields_present_generator : Json → String → List String
  | .obj kvs, pre => fpgEntries kvs pre
  | _, _ => []

def fpgEntries : List (String × Json) → String → List String
  | [], _ => []
  | (k, v) :: rest, pre => fpgVal v (pre ++ "/" ++ k) ++ fpgEntries rest pre

def fpgVal : Json → String → List String
  | .arr xs, p => fpgList xs p ++ [p]
  | .obj kvs, p => fpgEntries kvs p ++ [p]
  | _, p => [p]

def fpgList : List Json → String → List String
  | [], _ => []
  | (.obj kvs) :: rest, pre => fpgEntries kvs pre ++ fpgList rest pre
  | _ :: rest, pre => fpgList rest pre

end

/-- One step of Python `collections.Counter.update`: increment the count of a
key in place, or append it with count 1. -/
def counterAdd : List (String × Nat) → String → List (String × Nat)
  | [], s => [(s, 1)]
  | (k, n) :: rest, s =>
      if k = s then (k, n + 1) :: rest else (k, n) :: counterAdd rest s

/-- `get_fields_present` (common.py:332): a Counter over the generated field
paths, as an insertion-ordered association list. -/
def get_fields_present (j : Json) : List (String × Nat) :=
  (fields_present_generator j "").foldl counterAdd []

/-- Python `key.split('/')` (single-character separator). -/
def splitSlashGo : List Char → String → List String
  | [], acc => [acc]
  | c :: rest, acc =>
      if c = '/' then acc :: splitSlashGo rest "" else splitSlashGo rest (acc.push c)

def splitSlash (s : String) : List String := splitSlashGo s.data ""

/-- Python `'/'.join(parts)`. -/
def joinSlash : List String → String
  | [] => ""
  | [x] => x
  | x :: rest => x ++ "/" ++ joinSlash rest

/-- `"/".join(field.split('/')[:-1])`: the parent path of a slash-joined
field path. -/
def parentOf (f : String) : String := joinSlash (splitSlash f).dropLast

/-- `field.split('/')[-1]`: the last segment of a slash-joined field path. -/
def lastOf (f : String) : String := (splitSlash f).getLastD ""

/-- `get_counts_additional_fields` (common.py:357).  The schema field set
(`get_record_pkg_schema_fields` or `get_release_pkg_schema_fields`, both
remote-schema derived) is passed in directly as `schema_fields`, and the
compiled `LANGUAGE_RE` regex as the predicate `langRe`; the `context`
parameter of the source is unused by its body. Python iterates the surplus
set in unspecified set order; here first-occurrence order of the counter is
used (the claims only inspect membership). -/
def get_counts_additional_fields (langRe : String → Bool)
    (schema_fields : List String) (json_data : Json) (fields_regex : Bool) :
    List (String × String × Nat) :=
  ((get_fields_present json_data).filter (fun kc =>
      !(decide (kc.1 ∈ schema_fields)) &&
      (decide (parentOf kc.1 = "") || decide (parentOf kc.1 ∈ schema_fields)) &&
      !(fields_regex && langRe (lastOf kc.1)))).map
    (fun kc => (parentOf kc.1, lastOf kc.1, kc.2))

/-- Claim C5: the additional-fields computation keeps a surplus field (present
in data, absent from the schema field set) exactly when its parent path is
empty (top level) or itself a declared schema field; hence for
`{"foo":"x","bar":{"baz":1}}` against a schema declaring only `foo`, `bar` is
reported as additional but `bar/baz` is not. -/
theorem claim_C5 (langRe : String → Bool) (sf : List String) (d : Json) :
    (∀ p n c, (p, n, c) ∈ get_counts_additional_fields langRe sf d false ↔
       ∃ f, (f, c) ∈ get_fields_present d ∧ f ∉ sf ∧
         (parentOf f = "" ∨ parentOf f ∈ sf) ∧ p = parentOf f ∧ n = lastOf f) ∧
    get_counts_additional_fields (fun _ => false) ["/foo"]
        (.obj [("foo", .str "x"), ("bar", .obj [("baz", .num 1)])]) false
      = [("", "bar", 1)] := by
  constructor
  · intro p n c
    constructor
    · intro hmem
      simp only [get_counts_additional_fields, List.mem_map, List.mem_filter] at hmem
      rcases hmem with ⟨⟨f, cnt⟩, ⟨hfp, hcond⟩, heq⟩
      simp only [Prod.mk.injEq] at heq
      rcases heq with ⟨hp, hn, hc⟩
      simp only [Bool.and_eq_true, Bool.not_eq_true', Bool.or_eq_true,
        decide_eq_true_eq, decide_eq_false_iff_not] at hcond
      exact ⟨f, hc ▸ hfp, hcond.1.1, hcond.1.2, hp.symm, hn.symm⟩
    · rintro ⟨f, hfp, hnot, hpar, rfl, rfl⟩
      simp only [get_counts_additional_fields, List.mem_map, List.mem_filter]
      refine ⟨(f, c), ⟨hfp, ?_⟩, rfl⟩
      simp only [Bool.and_eq_true, Bool.not_eq_true', Bool.or_eq_true,
        decide_eq_true_eq, decide_eq_false_iff_not]
      exact ⟨⟨hnot, hpar⟩, by simp⟩
  · decide

/-- Python dict assignment `d[k] = v` on an insertion-ordered dict: replace in
place if the key exists, else append. -/
def odSet {α β : Type} [DecidableEq α] : List (α × β) → α → β → List (α × β)
  | [], k, v => [(k, v)]
  | (k', v') :: rest, k, v =>
      if k' = k then (k, v) :: rest else (k', v') :: odSet rest k v

theorem alookup_odSet_self {α β : Type} [DecidableEq α] (l : List (α × β)) (k : α) (v : β) :
    alookup k (odSet l k v) = some v := by
  induction l with
  | nil => simp [odSet, alookup]
  | cons kv rest ih =>
      rcases kv with ⟨k', v'⟩
      by_cases h : k' = k
      · simp [odSet, h, alookup]
      · simp [odSet, h, alookup, ih]

theorem alookup_odSet_other {α β : Type} [DecidableEq α] (l : List (α × β)) (k k' : α) (v : β)
    (h : k ≠ k') : alookup k (odSet l k' v) = alookup k l := by
  induction l with
  | nil => simp [odSet, alookup, Ne.symm h]
  | cons kv rest ih =>
      rcases kv with ⟨k'', v''⟩
      by_cases h2 : k'' = k'
      · subst h2
        simp [odSet, alookup, Ne.symm h]
      · simp only [odSet, if_neg h2]
        by_cases h3 : k'' = k
        · subst h3
          simp [alookup]
        · simp [alookup, h3, ih]

theorem odSet_eq_append_of_fresh {α β : Type} [DecidableEq α] (l : List (α × β)) (k : α) (v : β)
    (h : alookup k l = none) : odSet l k v = l ++ [(k, v)] := by
  induction l with
  | nil => simp [odSet]
  | cons kv rest ih =>
      rcases kv with ⟨k', v'⟩
      by_cases h2 : k' = k
      · subst h2; simp [alookup] at h
      · simp only [alookup, if_neg h2] at h
        simp [odSet, h2, ih h]

theorem alookup_append_right {α β : Type} [DecidableEq α] (l l' : List (α × β)) (k : α)
    (h : alookup k l = none) : alookup k (l ++ l') = alookup k l' := by
  induction l with
  | nil => simp
  | cons kv rest ih =>
      rcases kv with ⟨k', v'⟩
      by_cases h2 : k' = k
      · subst h2; simp [alookup] at h
      · simp only [alookup, if_neg h2] at h
        simp [alookup, h2, ih h]

/-- Python `record.get(k1) or record.get(k2)`: the second lookup is used when
the first is missing or falsy (the empty string). -/
def pyGetOr (r : List (String × String)) (k1 k2 : String) : Option String :=
  match alookup k1 r with
  | some v => if v ≠ "" then some v else alookup k2 r
  | none => alookup k2 r

/-- The inner loop of `_load_codelists` building one code-to-title mapping
from the CSV rows of one codelist file (`code = record.get('Code') or
record.get('code')`, `title = record.get('Title') or record.get('Title_en')`;
Python dict keys and values may be `None`, hence the `Option`s). -/
def buildCodelist (rows : List (List (String × String))) :
    List (Option String × Option String) :=
  rows.foldl
    (fun acc r =>
      let code := pyGetOr r "Code" "code"
      let title := pyGetOr r "Title" "Title_en"
      match acc.lookup code with
      | some _ => acc.map (fun kv => if kv.1 = code then (code, title) else kv)
      | none => acc ++ [(code, title)])
    []

/-- `_load_codelists` (common.py:606): one HTTP GET per codelist file; any
single fetch failure (RequestException from the GET or from
`raise_for_status`) empties the whole result and stops.  The
`requests`/`csv.DictReader` pipeline is abstracted into `fetchCSV`, which
returns the parsed CSV rows for a URL or a request failure. -/
def _load_codelists
    (fetchCSV : String → Except Unit (List (List (String × String))))
    (codelist_url : String) :
    List String → List (String × List (Option String × Option String)) →
      List (String × List (Option String × Option String))
  | [], codelists => codelists
  | f :: rest, codelists =>
      match fetchCSV (codelist_url ++ f) with
      | .ok rows => _load_codelists fetchCSV codelist_url rest
          (odSet codelists f (buildCodelist rows))
      | .error _ => []

theorem load_codelists_skips_untouched
    (fetchCSV : String → Except Unit (List (List (String × String))))
    (url : String) (files : List String) (f : String)
    (hok : ∀ g ∈ files, ∃ rows, fetchCSV (url ++ g) = .ok rows)
    (hnot : f ∉ files) (acc : List (String × List (Option String × Option String))) :
    alookup f (_load_codelists fetchCSV url files acc) = alookup f acc := by
  induction files generalizing acc with
  | nil => simp [_load_codelists]
  | cons g rest ih =>
      rcases hok g (List.mem_cons_self _ _) with ⟨rows, hrows⟩
      simp only [_load_codelists, hrows]
      rw [ih (fun g' hg' => hok g' (List.mem_cons_of_mem _ hg'))
        (fun hf => hnot (List.mem_cons_of_mem _ hf))]
      exact alookup_odSet_other _ _ _ _ (fun he => hnot (he ▸ List.mem_cons_self _ _))

theorem load_codelists_empties_on_failure
    (fetchCSV : String → Except Unit (List (List (String × String))))
    (url : String) (files : List String)
    (hfail : ∃ f ∈ files, fetchCSV (url ++ f) = .error ())
    (acc : List (String × List (Option String × Option String))) :
    _load_codelists fetchCSV url files acc = [] := by
  induction files generalizing acc with
  | nil => simp at hfail
  | cons g rest ih =>
      match hg : fetchCSV (url ++ g) with
      | .error e =>
          cases e
          simp [_load_codelists, hg]
      | .ok rows =>
          rcases hfail with ⟨f, hf, herr⟩
          have hfrest : f ∈ rest := by
            rcases List.mem_cons.mp hf with rfl | hr
            · rw [hg] at herr; cases herr
            · exact hr
          simp only [_load_codelists, hg]
          exact ih ⟨f, hfrest, herr⟩ _

theorem load_codelists_lookup
    (fetchCSV : String → Except Unit (List (List (String × String))))
    (url : String) (files : List String)
    (hnd : files.Nodup)
    (hok : ∀ g ∈ files, ∃ rows, fetchCSV (url ++ g) = .ok rows)
    (f : String) (hf : f ∈ files) (rows : List (List (String × String)))
    (hrows : fetchCSV (url ++ f) = .ok rows)
    (acc : List (String × List (Option String × Option String))) :
    alookup f (_load_codelists fetchCSV url files acc) = some (buildCodelist rows) := by
  induction files generalizing acc with
  | nil => simp at hf
  | cons g rest ih =>
      rcases List.nodup_cons.mp hnd with ⟨hg_nin, hnd'⟩
      rcases hok g (List.mem_cons_self _ _) with ⟨rowsg, hrowsg⟩
      simp only [_load_codelists, hrowsg]
      rcases List.mem_cons.mp hf with rfl | hfr
      · rw [hrowsg] at hrows
        cases hrows
        rw [load_codelists_skips_untouched fetchCSV url rest f
          (fun g' hg' => hok g' (List.mem_cons_of_mem _ hg')) hg_nin]
        exact alookup_odSet_self _ _ _
      · exact ih hnd' (fun g' hg' => hok g' (List.mem_cons_of_mem _ hg')) hfr _

/-- Claim C6: if fetching any single codelist file of the batch fails, the
loader returns an empty result for the whole batch (never a partial mapping);
only when every file loads does the result map each filename to its
code-to-title mapping. -/
theorem claim_C6
    (fetchCSV : String → Except Unit (List (List (String × String))))
    (url : String) (files : List String) (hnd : files.Nodup) :
    ((∃ f ∈ files, fetchCSV (url ++ f) = .error ()) →
       _load_codelists fetchCSV url files [] = []) ∧
    ((∀ f ∈ files, ∃ rows, fetchCSV (url ++ f) = .ok rows) →
       ∀ f ∈ files, ∀ rows, fetchCSV (url ++ f) = .ok rows →
         alookup f (_load_codelists fetchCSV url files []) =
           some (buildCodelist rows)) := by
  constructor
  · intro hfail
    exact load_codelists_empties_on_failure fetchCSV url files hfail []
  · intro hok f hf rows hrows
    exact load_codelists_lookup fetchCSV url files hnd hok f hf rows hrows []

/-- Witness for claim C6: a two-file batch where the second fetch fails yields
the empty result, and the same batch with both fetches succeeding maps each
file to its parsed codelist. -/
theorem claim_C6_witness :
    _load_codelists
        (fun u => if u = "http://cl/a.csv" then
            .ok [[("Code", "open"), ("Title", "Open")]] else .error ())
        "http://cl/" ["a.csv", "b.csv"] [] = [] ∧
    alookup "a.csv"
        (_load_codelists
          (fun _ => .ok [[("Code", "open"), ("Title", "Open")]])
          "http://cl/" ["a.csv"] []) =
      some (buildCodelist [[("Code", "open"), ("Title", "Open")]]) := by
  constructor
  · exact (claim_C6
      (fun u => if u = "http://cl/a.csv" then
          .ok [[("Code", "open"), ("Title", "Open")]] else .error ())
      "http://cl/" ["a.csv", "b.csv"] (by decide)).1
      ⟨"b.csv", by decide, rfl⟩
  · exact (claim_C6 (fun _ => .ok [[("Code", "open"), ("Title", "Open")]])
      "http://cl/" ["a.csv"] (by decide)).2
      (fun f _ => ⟨[[("Code", "open"), ("Title", "Open")]], rfl⟩)
      "a.csv" (by decide) _ rfl

/-- Python iteration over a JSON value (`for ext in data_extensions`): list
elements, dict keys, or the characters of a string.  Other truthy values
would raise TypeError in Python; they are unreachable for package data and
iterate to nothing here. -/
def pyIterKeys : Json → List Json
  | .arr xs => xs
  | .obj kvs => kvs.map (fun kv => Json.str kv.1)
  | .str s => s.data.map (fun c => Json.str (String.singleton c))
  | _ => []

/-- `self.extensions = {ext: tuple() for ext in data_extensions}` when
`release_data.get('extensions', {})` is truthy: the dict-comprehension keys,
first occurrence kept. -/
def extOf : Option (List (String × Json)) → List Json
  | none => []
  | some entries =>
      match alookup "extensions" entries with
      | some e => if e.truthy then (pyIterKeys e).foldl setAdd [] else []
      | none => []

/-- The resolved result of `SchemaOCDS.__init__` (common.py:136); the three
schema URLs are `urljoin(schema_host, name)` and carry no extra logic. -/
structure SchemaOCDSState where
  version : String
  invalid_version_argument : Bool
  invalid_version_data : Bool
  schema_host : String
  extensions : List Json
deriving Repr, DecidableEq

/-- The `release_data.get('version')` branch of `__init__`: returns the
resolved (version, schema_host, invalid_version_data).  A falsy version value
(missing, empty string, ...) is silently ignored; a truthy value is looked up
in `version_choices` (whose values are `(display, host)` tuples, the host
being component `[1]`), and a miss records `invalid_version_data`. -/
def dataVersionResult (version_choices : List (String × String × String))
    (default_version default_host : String) (entries : List (String × Json)) :
    String × String × Bool :=
  match alookup "version" entries with
  | some rv =>
      if rv.truthy then
        match rv with
        | .str s =>
            match alookup s version_choices with
            | some ch => (s, ch.2, false)
            | none => (default_version, default_host, true)
        | _ => (default_version, default_host, true)
      else (default_version, default_host, false)
  | none => (default_version, default_host, false)

/-- `__init__` when the `select_version` argument is absent or falsy: version
and host come from the release data or the defaults. -/
def initNoSelect (version_choices : List (String × String × String))
    (default_version default_host : String)
    (release_data : Option (List (String × Json))) : SchemaOCDSState :=
  match release_data with
  | none =>
      { version := default_version, invalid_version_argument := false,
        invalid_version_data := false, schema_host := default_host,
        extensions := [] }
  | some entries =>
      let r := dataVersionResult version_choices default_version default_host entries
      { version := r.1, invalid_version_argument := false,
        invalid_version_data := r.2.2, schema_host := r.2.1,
        extensions := extOf (some entries) }

/-- `SchemaOCDS.__init__` (common.py:136): exactly one version is selected
with precedence select_version > data version > default; an invalid (truthy)
`select_version` sets `invalid_version_argument` and falls back to the
no-selection behaviour; the class attribute `default_schema_host =
version_choices[default_version][1]` is recomputed here (`getD ""` is
unreachable when the default version is a valid choice). -/
def SchemaOCDS_init (version_choices : List (String × String × String))
    (default_version : String) (select_version : Option String)
    (release_data : Option (List (String × Json))) : SchemaOCDSState :=
  let default_host := ((alookup default_version version_choices).map (fun ch => ch.2)).getD ""
  match select_version with
  | some sv =>
      if sv = "" then initNoSelect version_choices default_version default_host release_data
      else
        match alookup sv version_choices with
        | some ch =>
            { version := sv, invalid_version_argument := false,
              invalid_version_data := false, schema_host := ch.2,
              extensions := extOf release_data }
        | none =>
            let r := initNoSelect version_choices default_version default_host release_data
            { r with invalid_version_argument := true }
  | none => initNoSelect version_choices default_version default_host release_data

/-- Claim C8: exactly one schema version is selected with precedence explicit
selection > version declared in the data > default; an invalid explicit
selection sets `invalid_version_argument` and continues with the fallback
(the very state the no-selection run would produce), and an invalid
data-declared version sets `invalid_version_data` and continues with the
default version. -/
theorem claim_C8 (version_choices : List (String × String × String))
    (default_version : String) (select_version : Option String)
    (release_data : Option (List (String × Json)))
    (dch : String × String)
    (hdef : alookup default_version version_choices = some dch) :
    (∀ v ch, select_version = some v → v ≠ "" →
       alookup v version_choices = some ch →
       (SchemaOCDS_init version_choices default_version select_version release_data).version = v ∧
       (SchemaOCDS_init version_choices default_version select_version release_data).schema_host = ch.2 ∧
       (SchemaOCDS_init version_choices default_version select_version release_data).invalid_version_argument = false ∧
       (SchemaOCDS_init version_choices default_version select_version release_data).invalid_version_data = false) ∧
    (∀ v, select_version = some v → v ≠ "" →
       alookup v version_choices = none →
       SchemaOCDS_init version_choices default_version select_version release_data =
         { SchemaOCDS_init version_choices default_version none release_data with
             invalid_version_argument := true }) ∧
    (∀ entries s ch, select_version = none → release_data = some entries →
       alookup "version" entries = some (.str s) → s ≠ "" →
       alookup s version_choices = some ch →
       (SchemaOCDS_init version_choices default_version select_version release_data).version = s ∧
       (SchemaOCDS_init version_choices default_version select_version release_data).schema_host = ch.2 ∧
       (SchemaOCDS_init version_choices default_version select_version release_data).invalid_version_argument = false ∧
       (SchemaOCDS_init version_choices default_version select_version release_data).invalid_version_data = false) ∧
    (∀ entries rv, select_version = none → release_data = some entries →
       alookup "version" entries = some rv → rv.truthy = true →
       (∀ s, rv = .str s → alookup s version_choices = none) →
       (SchemaOCDS_init version_choices default_version select_version release_data).version = default_version ∧
       (SchemaOCDS_init version_choices default_version select_version release_data).schema_host = dch.2 ∧
       (SchemaOCDS_init version_choices default_version select_version release_data).invalid_version_data = true) ∧
    (select_version = none → release_data = none →
       SchemaOCDS_init version_choices default_version select_version release_data =
         { version := default_version, invalid_version_argument := false,
           invalid_version_data := false, schema_host := dch.2,
           extensions := [] }) := by
  refine ⟨?_, ?_, ?_, ?_, ?_⟩
  · rintro v ch rfl hne hch
    simp [SchemaOCDS_init, hne, hch]
  · rintro v rfl hne hch
    simp [SchemaOCDS_init, hne, hch]
  · rintro entries s ch rfl rfl hver hne hch
    have hst : Json.truthy (.str s) = true := by simp [Json.truthy, hne]
    simp [SchemaOCDS_init, initNoSelect, dataVersionResult, hver, hst, hch]
  · rintro entries rv rfl rfl hver htr hmiss
    match rv with
    | .str s =>
        simp [SchemaOCDS_init, initNoSelect, dataVersionResult, hver, htr,
          hmiss s rfl, hdef]
    | .null => simp [Json.truthy] at htr
    | .bool b =>
        simp only [Json.truthy] at htr
        subst htr
        simp [SchemaOCDS_init, initNoSelect, dataVersionResult, hver, hdef,
          Json.truthy]
    | .num n =>
        simp [SchemaOCDS_init, initNoSelect, dataVersionResult, hver, htr, hdef]
    | .arr xs =>
        simp [SchemaOCDS_init, initNoSelect, dataVersionResult, hver, htr, hdef]
    | .obj kvs =>
        simp [SchemaOCDS_init, initNoSelect, dataVersionResult, hver, htr, hdef]
  · rintro rfl rfl
    simp [SchemaOCDS_init, initNoSelect, hdef]

/-- Witness for claim C8: an invalid explicit version string sets
`invalid_version_argument = true` and falls back to the default choice's
host. -/
theorem claim_C8_witness :
    alookup "1.1" [("1.1", ("1.1", "http://standard/1-1/"))] =
      some ("1.1", "http://standard/1-1/") ∧
    SchemaOCDS_init [("1.1", ("1.1", "http://standard/1-1/"))] "1.1"
        (some "bogus") none =
      { SchemaOCDS_init [("1.1", ("1.1", "http://standard/1-1/"))] "1.1"
          none none with invalid_version_argument := true } := by
  refine ⟨rfl, ?_⟩
  exact (claim_C8 [("1.1", ("1.1", "http://standard/1-1/"))] "1.1"
    (some "bogus") none ("1.1", "http://standard/1-1/") rfl).2.1
    "bogus" rfl (by decide) rfl

/-- The outcome of one `requests.get`: a raised RequestException, or a
response with its `ok` flag, status code, reason, and `.json()` result (a
parse failure models `json.JSONDecodeError`). -/
inductive FetchOutcome where
  | exn : FetchOutcome
  | resp (ok : Bool) (status_code : Nat) (reason : String) (body : Except Unit Json) :
      FetchOutcome

/-- The characters strictly before the last slash, if the list has one. -/
def beforeLastSlash : List Char → Option (List Char)
  | [] => none
  | c :: rest =>
      match beforeLastSlash rest with
      | some l => some (c :: l)
      | none => if c = '/' then some [] else none

/-- `i = url.rfind('/'); '{}/{}'.format(url[:i], 'release-schema.json')`; when
there is no slash, `rfind` returns -1 and `url[:-1]` drops the last
character. -/
def releaseSchemaUrl (u : String) : String :=
  (match beforeLastSlash u.data with
   | some pre => String.mk pre
   | none => String.mk u.data.dropLast) ++ "/release-schema.json"

/-- ASCII lower-casing of one character, as Python `str.lower` does on the
ASCII reasons used here. -/
def charLower (c : Char) : Char :=
  if 'A' ≤ c ∧ c ≤ 'Z' then Char.ofNat (c.toNat + 32) else c

/-- Python `s.lower()` (ASCII). -/
def pyLower (s : String) : String := String.mk (s.data.map charLower)

/-- Python dict `del`/`pop` used by JSON merge patch: drop a key. -/
def odRemove {α β : Type} [DecidableEq α] : List (α × β) → α → List (α × β)
  | [], _ => []
  | (k', v') :: rest, k => if k' = k then rest else (k', v') :: odRemove rest k

mutual

/-- `json_merge_patch.merge` (RFC 7386) as used by `apply_extensions`: a
non-dict patch replaces the target; a dict patch merges key by key, `null`
removing the key, other values merged recursively against the target's value
(or `{}` when absent). -/
def Json.mergePatch : Json → Json → Json
  | .obj tkvs, .obj pkvs => .obj (mergeEntries tkvs pkvs)
  | _, .obj pkvs => .obj (mergeEntries [] pkvs)
  | _, p => p

def mergeEntries : List (String × Json) → List (String × Json) → List (String × Json)
  | tkvs, [] => tkvs
  | tkvs, (k, v) :: rest =>
      mergeEntries
        (if v = Json.null then odRemove tkvs k
         else odSet tkvs k (Json.mergePatch ((alookup k tkvs).getD (Json.obj [])) v))
        rest

end

/-- The unguarded trailing part of the `apply_extensions` loop body:
`requests.get(extensions_descriptor_url).json()` followed by the `['name']`
and `['description']` subscripts; any failure here raises out of the whole
method. -/
def descriptorFetch (env : String → FetchOutcome) (u : String) :
    Except Unit (Json × Json) :=
  match env u with
  | .exn => .error ()
  | .resp _ _ _ body =>
      match body with
      | .error _ => .error ()
      | .ok desc =>
          match desc with
          | .obj entries =>
              match alookup "name" entries, alookup "description" entries with
              | some n, some d => .ok (n, d)
              | _, _ => .error ()
          | _ => .error ()

/-- The failure classification of one extension's `release-schema.json`
fetch: `fetching failed` for a raised RequestException, `invalid JSON` for an
OK response whose body fails to parse, `'<status>: <reason.lower()>'` for a
non-OK response; `none` when the fetch succeeds. -/
def extFailReason (env : String → FetchOutcome) (u : String) : Option String :=
  match env (releaseSchemaUrl u) with
  | .exn => some "fetching failed"
  | .resp ok status reason body =>
      if ok then
        match body with
        | .error _ => some "invalid JSON"
        | .ok _ => none
      else some (toString status ++ ": " ++ pyLower reason)

/-- The mutable state of `SchemaOCDS.apply_extensions` (common.py:186). -/
structure ApplyExtState where
  schema : Json
  invalid_extension : List (String × String)
  extensions : List (String × Option (String × Json × Json))
  extended : Bool

/-- `SchemaOCDS.apply_extensions` (common.py:186), iterating the extension
descriptor URLs: a failed or unparseable `release-schema.json` fetch records
its reason under the descriptor URL and continues; a successful fetch merges
the patch, re-fetches the descriptor itself (unguarded: a failure there
raises, modelled as `.error`), records `(url, name, description)` and sets
`extended`. -/
def apply_extensions (env : String → FetchOutcome) :
    List String → ApplyExtState → Except Unit ApplyExtState
  | [], st => .ok st
  | u :: rest, st =>
      let url := releaseSchemaUrl u
      match env url with
      | .exn =>
          apply_extensions env rest
            { st with invalid_extension := odSet st.invalid_extension u "fetching failed" }
      | .resp ok status reason body =>
          if ok then
            match body with
            | .error _ =>
                apply_extensions env rest
                  { st with invalid_extension := odSet st.invalid_extension u "invalid JSON" }
            | .ok extData =>
                match descriptorFetch env u with
                | .error _ => .error ()
                | .ok nd =>
                    apply_extensions env rest
                      { st with schema := Json.mergePatch st.schema extData, extensions := odSet st.extensions u (some (url, nd.1, nd.2)), extended := true }
          else
            apply_extensions env rest
              { st with invalid_extension := odSet st.invalid_extension u (toString status ++ ": " ++ pyLower reason) }

theorem apply_extensions_ok (env : String → FetchOutcome) (exts : List String)
    (st : ApplyExtState) (hnd : exts.Nodup)
    (hfresh : ∀ u ∈ exts, alookup u st.invalid_extension = none)
    (hdesc : ∀ u ∈ exts, extFailReason env u = none →
       ∃ nd, descriptorFetch env u = .ok nd) :
    ∃ st', apply_extensions env exts st = .ok st' ∧
      st'.invalid_extension = st.invalid_extension ++
        exts.filterMap (fun u => (extFailReason env u).map (fun rsn => (u, rsn))) ∧
      st'.extended = (st.extended || exts.any (fun u => (extFailReason env u).isNone)) := by
  induction exts generalizing st with
  | nil => exact ⟨st, rfl, by simp, by simp⟩
  | cons u rest ih =>
      rcases List.nodup_cons.mp hnd with ⟨hu_nin, hnd'⟩
      have hfresh_u := hfresh u (List.mem_cons_self _ _)
      have hfresh' : ∀ (newRsn : String), ∀ u' ∈ rest,
          alookup u' (odSet st.invalid_extension u newRsn) = none := by
        intro newRsn u' hu'
        have hne : u' ≠ u := by
          intro he
          exact hu_nin (he ▸ hu')
        rw [alookup_odSet_other _ _ _ _ hne]
        exact hfresh u' (List.mem_cons_of_mem _ hu')
      have hdesc' : ∀ u' ∈ rest, extFailReason env u' = none →
          ∃ nd, descriptorFetch env u' = .ok nd :=
        fun u' hu' => hdesc u' (List.mem_cons_of_mem _ hu')
      match henv : env (releaseSchemaUrl u) with
      | .exn =>
          have hreason : extFailReason env u = some "fetching failed" := by
            simp [extFailReason, henv]
          rcases (ih { st with invalid_extension := odSet st.invalid_extension u "fetching failed" }
              hnd' (hfresh' _) hdesc') with ⟨st', hrun, hinv, hext⟩
          refine ⟨st', ?_, ?_, ?_⟩
          · simpa [apply_extensions, henv] using hrun
          · rw [hinv]
            simp only [List.filterMap_cons, hreason, Option.map_some]
            rw [odSet_eq_append_of_fresh _ _ _ hfresh_u, List.append_assoc]
            rfl
          · rw [hext]
            simp [hreason]
      | .resp ok status reason body =>
          match hok : ok, hbody : body with
          | true, .error e =>
              cases e
              have hreason : extFailReason env u = some "invalid JSON" := by
                simp [extFailReason, henv]
              rcases (ih { st with invalid_extension := odSet st.invalid_extension u "invalid JSON" }
                  hnd' (hfresh' _) hdesc') with ⟨st', hrun, hinv, hext⟩
              refine ⟨st', ?_, ?_, ?_⟩
              · simpa [apply_extensions, henv] using hrun
              · rw [hinv]
                simp only [List.filterMap_cons, hreason, Option.map_some]
                rw [odSet_eq_append_of_fresh _ _ _ hfresh_u, List.append_assoc]
                rfl
              · rw [hext]
                simp [hreason]
          | true, .ok extData =>
              have hreason : extFailReason env u = none := by
                simp [extFailReason, henv]
              rcases hdesc u (List.mem_cons_self _ _) hreason with ⟨nd, hnd_ok⟩
              rcases (ih { st with schema := Json.mergePatch st.schema extData, extensions := odSet st.extensions u (some (releaseSchemaUrl u, nd.1, nd.2)), extended := true }
                  hnd' (fun u' hu' => hfresh u' (List.mem_cons_of_mem _ hu')) hdesc')
                with ⟨st', hrun, hinv, hext⟩
              refine ⟨st', ?_, ?_, ?_⟩
              · simpa [apply_extensions, henv, hnd_ok] using hrun
              · rw [hinv]
                simp [List.filterMap_cons, hreason]
              · rw [hext]
                simp [hreason]
          | false, _ =>
              have hreason : extFailReason env u =
                  some (toString status ++ ": " ++ pyLower reason) := by
                simp [extFailReason, henv]
              rcases (ih { st with invalid_extension := odSet st.invalid_extension u (toString status ++ ": " ++ pyLower reason) }
                  hnd' (hfresh' _) hdesc') with ⟨st', hrun, hinv, hext⟩
              refine ⟨st', ?_, ?_, ?_⟩
              · simpa [apply_extensions, henv] using hrun
              · rw [hinv]
                simp only [List.filterMap_cons, hreason, Option.map_some]
                rw [odSet_eq_append_of_fresh _ _ _ hfresh_u, List.append_assoc]
                rfl
              · rw [hext]
                simp [hreason]

/-- Claim C4: a failure to fetch or parse any extension's
`release-schema.json` never aborts processing: the failing descriptor URL is
recorded in `invalid_extension` with reason `fetching failed` (network
error), `invalid JSON` (parse error) or `<status>: <reason>` (non-OK
response), the remaining extensions are still processed, and `extended` is
true exactly when some extension merged successfully.  (The unguarded
descriptor re-fetch on the success path, outside this claim, is assumed not
to raise.) -/
theorem claim_C4 (env : String → FetchOutcome) (exts : List String) (schema : Json)
    (hnd : exts.Nodup)
    (hdesc : ∀ u ∈ exts, extFailReason env u = none →
       ∃ nd, descriptorFetch env u = .ok nd) :
    ∃ st', apply_extensions env exts
        { schema := schema, invalid_extension := [],
          extensions := exts.map (fun u => (u, none)), extended := false } = .ok st' ∧
      st'.invalid_extension =
        exts.filterMap (fun u => (extFailReason env u).map (fun rsn => (u, rsn))) ∧
      (st'.extended = true ↔ ∃ u ∈ exts, extFailReason env u = none) := by
  rcases (apply_extensions_ok env exts
      { schema := schema, invalid_extension := [],
        extensions := exts.map (fun u => (u, none)), extended := false }
      hnd (fun u _ => by simp [alookup]) hdesc) with ⟨st', hrun, hinv, hext⟩
  refine ⟨st', hrun, by simpa using hinv, ?_⟩
  rw [hext]
  simp [List.any_eq_true, Option.isNone_iff_eq_none]

/-- Witness for claim C4: one extension whose `release-schema.json` fetch
raises and one whose fetch returns 404 are both recorded with their reasons,
processing reaches the end, and `extended` stays false. -/
theorem claim_C4_witness :
    ∃ st', apply_extensions
        (fun u => if u = "http://a/release-schema.json" then .exn
          else .resp false 404 "Not Found" (.error ()))
        ["http://a/ext.json", "http://b/ext.json"]
        { schema := Json.obj [], invalid_extension := [],
          extensions := [("http://a/ext.json", none), ("http://b/ext.json", none)],
          extended := false } = .ok st' ∧
      st'.invalid_extension =
        [("http://a/ext.json", "fetching failed"),
         ("http://b/ext.json", "404: not found")] ∧
      (st'.extended = true ↔ ∃ u ∈ ["http://a/ext.json", "http://b/ext.json"],
         extFailReason
           (fun u => if u = "http://a/release-schema.json" then .exn
             else .resp false 404 "Not Found" (.error ())) u = none) := by
  have h := claim_C4
    (fun u => if u = "http://a/release-schema.json" then FetchOutcome.exn
      else .resp false 404 "Not Found" (.error ()))
    ["http://a/ext.json", "http://b/ext.json"] (Json.obj []) (by decide)
    (by
      intro u hu hnone
      rcases List.mem_cons.mp hu with rfl | hu'
      · rw [show extFailReason
            (fun u => if u = "http://a/release-schema.json" then FetchOutcome.exn
              else .resp false 404 "Not Found" (.error ())) "http://a/ext.json"
            = some "fetching failed" from rfl] at hnone
        cases hnone
      · rcases List.mem_cons.mp hu' with rfl | hu''
        · rw [show extFailReason
              (fun u => if u = "http://a/release-schema.json" then FetchOutcome.exn
                else .resp false 404 "Not Found" (.error ())) "http://b/ext.json"
              = some "404: not found" from rfl] at hnone
          cases hnone
        · simp at hu'')
  rcases h with ⟨st', hrun, hinv, hext⟩
  refine ⟨st', hrun, ?_, hext⟩
  rw [hinv]
  rfl

/-- A JSON path segment as built by the Python walkers: a dict key (string)
or a list index (int). -/
inductive Seg where
  | s (v : String) : Seg
  | i (n : Nat) : Seg
deriving DecidableEq, Repr

/-- The string segments of a path (`tuple(key for key in path if
isinstance(key, str))`). -/
def segStr? : Seg → Option String
  | .s v => some v
  | .i _ => none

def isObjJson : Json → Bool
  | .obj _ => true
  | _ => false

mutual

/-- `_generate_data_path` (common.py:627): walks a dict, skipping every key
whose value is falsy; a truthy list whose first element is a dict is recursed
per element (path extended with key and index), any other truthy list is
yielded whole, a truthy dict is recursed, and a scalar is yielded.  Calling
it on a non-dict (as Python does for a non-dict element of a dict-headed
list) raises AttributeError, modelled as `.error`. -/
def _generate_data_path : Json → List Seg → Except Unit (List (List Seg × Json))
  | .obj kvs, path => genEntries kvs path
  | _, _ => .error ()

def genEntries : List (String × Json) → List Seg → Except Unit (List (List Seg × Json))
  | [], _ => .ok []
  | (k, v) :: rest, path =>
      if v.truthy then
        match genVal v path k with
        | .error e => .error e
        | .ok l1 =>
            match genEntries rest path with
            | .error e => .error e
            | .ok l2 => .ok (l1 ++ l2)
      else genEntries rest path

def genVal : Json → List Seg → String → Except Unit (List (List Seg × Json))
  | .arr xs, path, k =>
      (match xs with
       | [] => .ok []
       | x0 :: _ =>
           if isObjJson x0 then genArrItems xs 0 (path ++ [.s k])
           else .ok [(path ++ [.s k], .arr xs)])
  | .obj kvs, path, k => genEntries kvs (path ++ [.s k])
  | v, path, k => .ok [(path ++ [.s k], v)]

def genArrItems : List Json → Nat → List Seg → Except Unit (List (List Seg × Json))
  | [], _, _ => .ok []
  | item :: rest, n, path =>
      match _generate_data_path item (path ++ [.i n]) with
      | .error e => .error e
      | .ok l1 =>
          match genArrItems rest (n + 1) path with
          | .error e => .error e
          | .ok l2 => .ok (l1 ++ l2)

end

/-- Python `value in codelist_values` for a data value against the keys of a
loaded codelist dict (keys are `Option String`: a CSV row without a code
column yields key `None`). -/
def jsonKeyEq : Json → Option String → Bool
  | .str v, some t => v == t
  | .null, none => true
  | _, _ => false

/-- One entry of the `additional_codelist_values` result (common.py:670);
`values` is the Python set of unseen codes, insertion-ordered. -/
structure CodelistViolation where
  path : String
  field : String
  codelist : String
  codelist_url : String
  isopen : Bool
  values : List Json
deriving DecidableEq, Repr

/-- Insertion-ordered string-set accumulation (for the `frozenset` of
codelist filenames; iteration order of the Python frozenset is unspecified,
first occurrence is used here). -/
def strSetAdd (l : List String) (v : String) : List String :=
  if v ∈ l then l else l ++ [v]

/-- The per-(path, values) step of the `get_additional_codelist_values` loop. -/
def codelistStep (csp : List (List String × (String × Bool)))
    (codelists : List (String × List (Option String × Option String)))
    (codelist_url : String)
    (acv : List (List String × CodelistViolation)) (pv : List Seg × Json) :
    List (List String × CodelistViolation) :=
  let values := match pv.2 with
    | .arr xs => xs
    | v => [v]
  let pnn := pv.1.filterMap segStr?
  match alookup pnn csp with
  | none => acv
  | some ci =>
      match alookup ci.1 codelists with
      | none => acv
      | some cl =>
          if cl.isEmpty then acv
          else
            values.foldl
              (fun acv v =>
                if cl.any (fun kv => jsonKeyEq v kv.1) then acv
                else
                  let acv1 :=
                    if (alookup pnn acv).isNone then
                      odSet acv pnn
                        { path := joinSlash pnn.dropLast, field := pnn.getLastD "",
                          codelist := ci.1, codelist_url := codelist_url ++ ci.1,
                          isopen := ci.2, values := [] }
                    else acv
                  acv1.map (fun e =>
                    if e.1 = pnn then (e.1, { e.2 with values := setAdd e.2.values v })
                    else e))
              acv

/-- `get_additional_codelist_values` (common.py:643).  The schema walk
`_get_schema_codelist_paths(schema_obj)` is passed in as
`codelist_schema_paths`; the codelist CSVs are loaded through
`_load_codelists` over the explicit fetch environment.  A falsy
`codelist_url` returns the empty dict at once. -/
def get_additional_codelist_values
    (fetchCSV : String → Except Unit (List (List (String × String))))
    (codelist_schema_paths : List (List String × (String × Bool)))
    (codelist_url : String) (json_data : Json) :
    Except Unit (List (List String × CodelistViolation)) :=
  if codelist_url = "" then .ok []
  else
    match _generate_data_path json_data [] with
    | .error e => .error e
    | .ok pairs =>
        let unique_files := (codelist_schema_paths.map (fun p => p.2.1)).foldl strSetAdd []
        let codelists := _load_codelists fetchCSV codelist_url unique_files []
        .ok (pairs.foldl (codelistStep codelist_schema_paths codelists codelist_url) [])

mutual

theorem gen_truthy : ∀ j path out, _generate_data_path j path = .ok out →
    ∀ pv ∈ out, pv.2.truthy = true
  | .obj kvs, path, out, h => genEntries_truthy kvs path out h
  | .null, _, _, h => by simp [_generate_data_path] at h
  | .bool _, _, _, h => by simp [_generate_data_path] at h
  | .num _, _, _, h => by simp [_generate_data_path] at h
  | .str _, _, _, h => by simp [_generate_data_path] at h
  | .arr _, _, _, h => by simp [_generate_data_path] at h

theorem genEntries_truthy : ∀ kvs path out, genEntries kvs path = .ok out →
    ∀ pv ∈ out, pv.2.truthy = true
  | [], _, out, h => by
      simp only [genEntries] at h
      cases h
      intro pv hpv
      simp at hpv
  | (k, v) :: rest, path, out, h => by
      simp only [genEntries] at h
      by_cases htr : v.truthy = true
      · rw [if_pos htr] at h
        match h1 : genVal v path k with
        | .error e => rw [h1] at h; cases h
        | .ok l1 =>
            rw [h1] at h
            match h2 : genEntries rest path with
            | .error e => rw [h2] at h; cases h
            | .ok l2 =>
                rw [h2] at h
                cases h
                intro pv hpv
                rcases List.mem_append.mp hpv with hm | hm
                · exact genVal_truthy v path k htr l1 h1 pv hm
                · exact genEntries_truthy rest path l2 h2 pv hm
      · rw [if_neg htr] at h
        exact genEntries_truthy rest path out h

theorem genVal_truthy : ∀ v path k, v.truthy = true → ∀ out, genVal v path k = .ok out →
    ∀ pv ∈ out, pv.2.truthy = true
  | .arr xs, path, k, htr, out, h => by
      simp only [genVal] at h
      split at h
      · simp [Json.truthy] at htr
      · next x0 xrest =>
          by_cases hobj : isObjJson x0 = true
          · rw [if_pos hobj] at h
            exact genArrItems_truthy (x0 :: xrest) 0 (path ++ [.s k]) out h
          · rw [if_neg hobj] at h
            cases h
            intro pv hpv
            rcases List.mem_singleton.mp hpv with rfl
            exact htr
  | .obj kvs, path, k, htr, out, h => by
      simp only [genVal] at h
      exact genEntries_truthy kvs (path ++ [.s k]) out h
  | .null, path, k, htr, out, h => by simp [Json.truthy] at htr
  | .bool b, path, k, htr, out, h => by
      simp only [genVal] at h
      cases h
      intro pv hpv
      rcases List.mem_singleton.mp hpv with rfl
      exact htr
  | .num n, path, k, htr, out, h => by
      simp only [genVal] at h
      cases h
      intro pv hpv
      rcases List.mem_singleton.mp hpv with rfl
      exact htr
  | .str s, path, k, htr, out, h => by
      simp only [genVal] at h
      cases h
      intro pv hpv
      rcases List.mem_singleton.mp hpv with rfl
      exact htr

theorem genArrItems_truthy : ∀ xs n path out, genArrItems xs n path = .ok out →
    ∀ pv ∈ out, pv.2.truthy = true
  | [], _, _, out, h => by
      simp only [genArrItems] at h
      cases h
      intro pv hpv
      simp at hpv
  | item :: rest, n, path, out, h => by
      simp only [genArrItems] at h
      match h1 : _generate_data_path item (path ++ [.i n]) with
      | .error e => rw [h1] at h; cases h
      | .ok l1 =>
          rw [h1] at h
          match h2 : genArrItems rest (n + 1) path with
          | .error e => rw [h2] at h; cases h
          | .ok l2 =>
              rw [h2] at h
              cases h
              intro pv hpv
              rcases List.mem_append.mp hpv with hm | hm
              · exact gen_truthy item (path ++ [.i n]) l1 h1 pv hm
              · exact genArrItems_truthy rest (n + 1) path l2 h2 pv hm

end

theorem genEntries_filter_truthy (kvs : List (String × Json)) (path : List Seg) :
    genEntries kvs path = genEntries (kvs.filter (fun kv => kv.2.truthy)) path := by
  induction kvs with
  | nil => rfl
  | cons kv rest ih =>
      rcases kv with ⟨k, v⟩
      by_cases htr : v.truthy = true
      · simp only [genEntries, if_pos htr, List.filter_cons, htr]
        rw [ih]
      · simp only [genEntries, if_neg htr, List.filter_cons]
        exact ih

/-- Claim C10 (implicit): the codelist check's path generator skips every key
whose value is falsy before descending or yielding (generating from a dict
equals generating from the dict with its falsy-valued keys removed, at every
level), every yielded value is truthy, and consequently
`get_additional_codelist_values` is unchanged by dropping falsy-valued keys,
so such values are never compared against any codelist and never appear in
the violations. -/
theorem claim_C10 :
    (∀ (kvs : List (String × Json)) (path : List Seg),
       genEntries kvs path = genEntries (kvs.filter (fun kv => kv.2.truthy)) path) ∧
    (∀ (j : Json) (path : List Seg) (out : List (List Seg × Json)),
       _generate_data_path j path = .ok out → ∀ pv ∈ out, pv.2.truthy = true) ∧
    (∀ (fetchCSV : String → Except Unit (List (List (String × String))))
       (csp : List (List String × (String × Bool))) (url : String)
       (es : List (String × Json)),
       get_additional_codelist_values fetchCSV csp url (.obj es) =
         get_additional_codelist_values fetchCSV csp url
           (.obj (es.filter (fun kv => kv.2.truthy)))) := by
  refine ⟨genEntries_filter_truthy, gen_truthy, ?_⟩
  intro fetchCSV csp url es
  by_cases hurl : url = ""
  · simp [get_additional_codelist_values, hurl]
  · simp only [get_additional_codelist_values, hurl, if_false]
    have : _generate_data_path (.obj es) [] =
        _generate_data_path (.obj (es.filter (fun kv => kv.2.truthy))) [] := by
      simp only [_generate_data_path]
      exact genEntries_filter_truthy es []
    rw [this]

/-- Witness for claim C10 on `{"a":0,"b":"x"}`: the falsy `a` is skipped (the
generator output equals that of `{"b":"x"}`), and the one yielded pair is
truthy. -/
theorem claim_C10_witness :
    genEntries [("a", Json.num 0), ("b", Json.str "x")] [] =
      genEntries (([("a", Json.num 0), ("b", Json.str "x")]).filter
        (fun kv => kv.2.truthy)) [] ∧
    (_generate_data_path (.obj [("a", Json.num 0), ("b", Json.str "x")]) [] =
       .ok [([Seg.s "b"], Json.str "x")] ∧
     ∀ pv ∈ [([Seg.s "b"], Json.str "x")], (pv.2.truthy = true)) := by
  refine ⟨claim_C10.1 [("a", Json.num 0), ("b", Json.str "x")] [], rfl, ?_⟩
  exact claim_C10.2.1 (.obj [("a", Json.num 0), ("b", Json.str "x")]) []
    [([Seg.s "b"], Json.str "x")] rfl

/-- A backslash and a double quote, for building JSON-encoded strings. -/
def bslash : String := String.singleton (Char.ofNat 92)

def dquote : String := String.singleton (Char.ofNat 34)

def hexDigit (n : Nat) : Char :=
  if n < 10 then Char.ofNat (48 + n) else Char.ofNat (87 + n)

def hex4 (n : Nat) : String :=
  String.mk [hexDigit (n / 4096 % 16), hexDigit (n / 256 % 16),
             hexDigit (n / 16 % 16), hexDigit (n % 16)]

/-- One character of Python `json.dumps` string output (default
`ensure_ascii=True`): the two-character escapes, `\u00xx` for other control
characters, `\uxxxx` (with surrogate pairs) for non-ASCII. -/
def jsonEscapeChar (c : Char) : String :=
  if c = Char.ofNat 34 then bslash ++ dquote
  else if c = Char.ofNat 92 then bslash ++ bslash
  else if c = Char.ofNat 10 then bslash ++ "n"
  else if c = Char.ofNat 13 then bslash ++ "r"
  else if c = Char.ofNat 9 then bslash ++ "t"
  else if c = Char.ofNat 8 then bslash ++ "b"
  else if c = Char.ofNat 12 then bslash ++ "f"
  else if c.toNat < 32 ∨ c.toNat ≥ 127 then
    if c.toNat < 65536 then bslash ++ "u" ++ hex4 c.toNat
    else
      bslash ++ "u" ++ hex4 (55296 + (c.toNat - 65536) / 1024) ++
      bslash ++ "u" ++ hex4 (56320 + (c.toNat - 65536) % 1024)
  else String.singleton c

mutual

/-- Python `json.dumps` with its default separators, as used for the
validation-error grouping key `json.dumps(unique_validator_key)`. -/
def jsonDumps : Json → String
  | .null => "null"
  | .bool true => "true"
  | .bool false => "false"
  | .num n => toString n
  | .str s => dquote ++ String.join (s.data.map jsonEscapeChar) ++ dquote
  | .arr xs => "[" ++ ", ".intercalate (jsonDumpsList xs) ++ "]"
  | .obj kvs => "\x7b" ++ ", ".intercalate (jsonDumpsEntries kvs) ++ "\x7d"

def jsonDumpsList : List Json → List String
  | [] => []
  | x :: rest => jsonDumps x :: jsonDumpsList rest

def jsonDumpsEntries : List (String × Json) → List String
  | [] => []
  | (k, v) :: rest =>
      (dquote ++ String.join (k.data.map jsonEscapeChar) ++ dquote ++ ": " ++ jsonDumps v)
        :: jsonDumpsEntries rest

end

/-- `validation_error_lookup` (common.py:26). -/
def validation_error_lookup : List (String × String) :=
  [("date-time", "Date is not in the correct format"),
   ("uri", "Invalid " ++ apos ++ "uri" ++ apos ++ " found"),
   ("string", "Value is not a string"),
   ("integer", "Value is not a integer"),
   ("number", "Value is not a number"),
   ("object", "Value is not an object"),
   ("array", "Value is not an array")]

/-- One raw error from the Draft-4 validator's `iter_errors` stream, with the
fields `get_schema_validation_errors` reads: `e.validator`,
`e.validator_value`, `e.message`, `e.path`, `e.instance`, and whether
`"isCodelist" in e.schema`. -/
structure RawError where
  validator : String
  validator_value : Json
  message : String
  path : List Seg
  inst : Json
  schema_hasIsCodelist : Bool

/-- One entry of a cell source map: a 4-tuple (sheet, column letter, row,
header), a 2-tuple (sheet, row), or a tuple of another length (ignored). -/
inductive CellRef where
  | four (sheet col_alpha : String) (row_number : Nat) (header : String) : CellRef
  | two (sheet : String) (row_number : Nat) : CellRef
  | other : CellRef

/-- The per-occurrence `value` dict built for each raw error. -/
structure ValueRec where
  path : String
  sheet : Option String := none
  col_alpha : Option String := none
  row_number : Option Nat := none
  header : Option String := none
  value : Option Json := none
deriving DecidableEq, Repr

/-- Python `str` of a path segment. -/
def segToStr : Seg → String
  | .s v => v
  | .i n => toString n

def isIntSeg : Seg → Bool
  | .i _ => true
  | .s _ => false

def isScalarJson : Json → Bool
  | .obj _ => false
  | .arr _ => false
  | _ => true

/-- `validator_type` resolution and the `validation_error_lookup` message
override for `format`/`type` errors; `e.validator_value[0]` on an empty list
raises (modelled as `.error`). -/
def resolveTypeAndMessage (e : RawError) : Except Unit (Json × String) :=
  if e.validator = "format" ∨ e.validator = "type" then
    match e.validator_value with
    | .arr [] => .error ()
    | .arr (x :: _) => .ok (x, lookupNewMessage x e.message)
    | v => .ok (v, lookupNewMessage v e.message)
  else .ok (.str e.validator, e.message)
where
  lookupNewMessage (vt : Json) (msg : String) : String :=
    match vt with
    | .str s => (alookup s validation_error_lookup).getD msg
    | _ => msg

/-- `value = {"path": path}` plus the cell-source enrichment (first reference
of the map entry; 4-tuples give sheet/col/row/header, 2-tuples sheet/row) and
the literal value for scalar instances. -/
def baseValueRec (csm : String → Option (List CellRef)) (path : String) (inst : Json) :
    ValueRec :=
  let v0 : ValueRec := { path := path }
  let v1 := match csm path with
    | some (ref :: _) =>
        match ref with
        | .four sh col row hd =>
            { v0 with sheet := some sh, col_alpha := some col,
                      row_number := some row, header := some hd }
        | .two sh row => { v0 with sheet := some sh, row_number := some row }
        | .other => v0
    | _ => v0
  if isScalarJson inst then { v1 with value := some inst } else v1

/-- The error post-processing of the `get_schema_validation_errors` loop body
(common.py:396-447): resolve the validator kind, build the per-occurrence
value record, apply the `required`/`enum` message rewrites, and return the
JSON-encoded grouping key with the record — or `none` for a skipped
codelist-enum error, or `.error` where the Python would raise. -/
def processError (csm : String → Option (List CellRef))
    (hsm : String → Option (List (String × String))) (e : RawError) :
    Except Unit (Option (String × ValueRec)) :=
  let path := joinSlash (e.path.map segToStr)
  let path_no_number := joinSlash (e.path.filterMap segStr?)
  match resolveTypeAndMessage e with
  | .error _ => .error ()
  | .ok vtm =>
      let v := baseValueRec csm path e.inst
      if e.validator = "required" then
        let parentQualified :=
          if e.path.length > 2 then
            (let stl := (e.path.reverse.drop 1).headD (.s "")
             let parent := if isIntSeg stl then e.path.getLastD (.s "") else stl
             segToStr parent ++ ":" ++ e.message)
          else e.message
        match hsm (path_no_number ++ "/" ++ e.message) with
        | some (h0 :: _) =>
            .ok (some (jsonDumps (.arr [vtm.1,
              .str (apos ++ h0.2 ++ apos ++ " is missing but required"),
              .str path_no_number]), { v with header := some h0.2 }))
        | _ =>
            .ok (some (jsonDumps (.arr [vtm.1,
              .str (apos ++ parentQualified ++ apos ++ " is missing but required"),
              .str path_no_number]), v))
      else if e.validator = "enum" then
        if e.schema_hasIsCodelist then .ok none
        else
          -- `header = value.get('header'); if not header:` -- a missing OR
          -- empty-string header falls back to `e.path[-1]` (raising on an
          -- empty path)
          match (if (v.header.getD "") = "" then none else v.header) with
          | some hd =>
              .ok (some (jsonDumps (.arr [vtm.1,
                .str ("Invalid code found in " ++ apos ++ hd ++ apos),
                .str path_no_number]), v))
          | none =>
              match e.path.getLast? with
              | some seg =>
                  .ok (some (jsonDumps (.arr [vtm.1,
                    .str ("Invalid code found in " ++ apos ++ segToStr seg ++ apos),
                    .str path_no_number]), v))
              | none => .error ()
      else
        .ok (some (jsonDumps (.arr [vtm.1, .str vtm.2, .str path_no_number]), v))

/-- `validation_errors[json.dumps(unique_validator_key)].append(value)` on a
defaultdict(list): append under the key, keeping first-insertion order. -/
def groupAppend : List (String × List ValueRec) → String × ValueRec →
    List (String × List ValueRec)
  | [], (k, v) => [(k, [v])]
  | (k', vs) :: rest, (k, v) =>
      if k' = k then (k', vs ++ [v]) :: rest else (k', vs) :: groupAppend rest (k, v)

def gsveGo (csm : String → Option (List CellRef))
    (hsm : String → Option (List (String × String))) :
    List RawError → List (String × List ValueRec) →
      Except Unit (List (String × List ValueRec))
  | [], acc => .ok acc
  | e :: rest, acc =>
      match processError csm hsm e with
      | .error _ => .error ()
      | .ok none => gsveGo csm hsm rest acc
      | .ok (some kv) => gsveGo csm hsm rest (groupAppend acc kv)

/-- `get_schema_validation_errors` (common.py:379) over the raw error stream
of `our_validator.iter_errors(json_data)` (the jsonschema run itself, schema
selection and resolver setup are abstracted into the `errs` input). -/
def get_schema_validation_errors (csm : String → Option (List CellRef))
    (hsm : String → Option (List (String × String))) (errs : List RawError) :
    Except Unit (List (String × List ValueRec)) :=
  gsveGo csm hsm errs []

/-- The successfully processed, non-skipped (key, record) pairs, in stream
order. -/
def okPairs (csm : String → Option (List CellRef))
    (hsm : String → Option (List (String × String))) (errs : List RawError) :
    List (String × ValueRec) :=
  errs.filterMap (fun e =>
    match processError csm hsm e with
    | .ok (some kv) => some kv
    | _ => none)

theorem alookup_groupAppend (g : List (String × List ValueRec)) (k k' : String)
    (v : ValueRec) :
    alookup k (groupAppend g (k', v)) =
      if k' = k then some ((alookup k g).getD [] ++ [v]) else alookup k g := by
  induction g with
  | nil =>
      by_cases h : k' = k
      · simp [groupAppend, alookup, h]
      · simp [groupAppend, alookup, h]
  | cons kvs rest ih =>
      rcases kvs with ⟨k'', vs⟩
      by_cases h1 : k'' = k'
      · subst h1
        by_cases h2 : k'' = k
        · subst h2
          simp [groupAppend, alookup]
        · simp [groupAppend, alookup, h2]
      · simp only [groupAppend, if_neg h1]
        by_cases h2 : k'' = k
        · have h3 : ¬ (k' = k) := fun he => h1 (by rw [h2, he])
          simp [alookup, h2, h3]
        · simp [alookup, h2, ih]

theorem keys_groupAppend (g : List (String × List ValueRec)) (k : String) (v : ValueRec) :
    (groupAppend g (k, v)).map Prod.fst =
      if k ∈ g.map Prod.fst then g.map Prod.fst else g.map Prod.fst ++ [k] := by
  induction g with
  | nil => simp [groupAppend]
  | cons kvs rest ih =>
      rcases kvs with ⟨k', vs⟩
      by_cases h : k' = k
      · subst h
        simp [groupAppend]
      · simp only [groupAppend, if_neg h, List.map_cons, List.mem_cons]
        rw [ih]
        by_cases h2 : k ∈ rest.map Prod.fst
        · simp [h2, Ne.symm h]
        · simp [h2, Ne.symm h]

theorem nodup_keys_groupAppend (g : List (String × List ValueRec)) (k : String)
    (v : ValueRec) (hnd : (g.map Prod.fst).Nodup) :
    ((groupAppend g (k, v)).map Prod.fst).Nodup := by
  rw [keys_groupAppend]
  by_cases h : k ∈ g.map Prod.fst
  · simpa [h]
  · simp only [h, if_false]
    refine List.Nodup.append hnd (List.nodup_singleton k) ?_
    intro a ha hb
    rw [List.mem_singleton] at hb
    subst hb
    exact h ha

theorem valuesUnder_foldl (ps : List (String × ValueRec))
    (acc : List (String × List ValueRec)) (k : String) :
    (alookup k (ps.foldl groupAppend acc)).getD [] =
      (alookup k acc).getD [] ++ (ps.filter (fun p => decide (p.1 = k))).map Prod.snd := by
  induction ps generalizing acc with
  | nil => simp
  | cons p ps ih =>
      rcases p with ⟨k', v⟩
      simp only [List.foldl_cons]
      rw [ih]
      rw [alookup_groupAppend]
      by_cases h : k' = k
      · subst h
        simp [List.filter_cons, List.append_assoc]
      · simp [List.filter_cons, h]

theorem keys_foldl_mem (ps : List (String × ValueRec))
    (acc : List (String × List ValueRec)) (k : String) :
    k ∈ (ps.foldl groupAppend acc).map Prod.fst ↔
      k ∈ acc.map Prod.fst ∨ k ∈ ps.map Prod.fst := by
  induction ps generalizing acc with
  | nil => simp
  | cons p ps ih =>
      rcases p with ⟨k', v⟩
      simp only [List.foldl_cons]
      rw [ih, keys_groupAppend]
      by_cases h : k' ∈ acc.map Prod.fst
      · simp only [h, if_true, List.map_cons, List.mem_cons]
        constructor
        · rintro (ha | hp)
          · exact Or.inl ha
          · exact Or.inr (Or.inr hp)
        · rintro (ha | rfl | hp)
          · exact Or.inl ha
          · exact Or.inl h
          · exact Or.inr hp
      · simp only [h, if_false, List.mem_append, List.mem_singleton, List.map_cons,
          List.mem_cons]
        tauto

theorem keys_foldl_nodup (ps : List (String × ValueRec))
    (acc : List (String × List ValueRec)) (hnd : (acc.map Prod.fst).Nodup) :
    ((ps.foldl groupAppend acc).map Prod.fst).Nodup := by
  induction ps generalizing acc with
  | nil => exact hnd
  | cons p ps ih =>
      rcases p with ⟨k', v⟩
      exact ih _ (nodup_keys_groupAppend acc k' v hnd)

theorem gsveGo_eq_foldl (csm : String → Option (List CellRef))
    (hsm : String → Option (List (String × String))) (errs : List RawError)
    (acc out : List (String × List ValueRec))
    (h : gsveGo csm hsm errs acc = .ok out) :
    out = (okPairs csm hsm errs).foldl groupAppend acc := by
  induction errs generalizing acc with
  | nil =>
      simp only [gsveGo] at h
      cases h
      simp [okPairs]
  | cons e rest ih =>
      simp only [gsveGo] at h
      match hp : processError csm hsm e with
      | .error e' => rw [hp] at h; cases h
      | .ok none =>
          rw [hp] at h
          have := ih _ h
          simpa [okPairs, List.filterMap_cons, hp] using this
      | .ok (some kv) =>
          rw [hp] at h
          have := ih _ h
          simpa [okPairs, List.filterMap_cons, hp] using this

theorem alookup_eq_of_mem_of_nodup {β : Type} (l : List (String × β)) (k : String)
    (v : β) (hnd : (l.map Prod.fst).Nodup) (hmem : (k, v) ∈ l) :
    alookup k l = some v := by
  induction l with
  | nil => simp at hmem
  | cons kv rest ih =>
      rcases kv with ⟨k', v'⟩
      have hnd2 : (k' :: rest.map Prod.fst).Nodup := by simpa using hnd
      rcases List.nodup_cons.mp hnd2 with ⟨hnin, hnd'⟩
      rcases List.mem_cons.mp hmem with he | hm
      · obtain ⟨h1, h2⟩ := Prod.ext_iff.mp he
        simp only at h1 h2
        subst h1
        subst h2
        simp [alookup]
      · have hk : k' ≠ k := by
          intro he2
          subst he2
          exact hnin (List.mem_map.mpr ⟨(k', v), hm, rfl⟩)
        simp only [alookup, if_neg hk]
        exact ih hnd' hm

/-- Claim C3: raw errors are grouped under the JSON-encoded key of (resolved
validator kind, final message, path with integer segments stripped): the
result's keys are distinct, each entry under a key carries exactly the
per-occurrence value records of the errors mapping to that key (in stream
order), and every processed error lands in the entry for its key. -/
theorem claim_C3 (csm : String → Option (List CellRef))
    (hsm : String → Option (List (String × String))) (errs : List RawError)
    (out : List (String × List ValueRec))
    (h : get_schema_validation_errors csm hsm errs = .ok out) :
    ((out.map Prod.fst).Nodup) ∧
    (∀ k vs, (k, vs) ∈ out →
       vs = ((okPairs csm hsm errs).filter (fun p => decide (p.1 = k))).map Prod.snd) ∧
    (∀ p ∈ okPairs csm hsm errs, ∃ vs, (p.1, vs) ∈ out ∧ p.2 ∈ vs) := by
  have hout : out = (okPairs csm hsm errs).foldl groupAppend [] :=
    gsveGo_eq_foldl csm hsm errs [] out h
  have hnd : (out.map Prod.fst).Nodup := by
    rw [hout]
    exact keys_foldl_nodup _ [] (by simp)
  refine ⟨hnd, ?_, ?_⟩
  · intro k vs hmem
    have hl : alookup k out = some vs := alookup_eq_of_mem_of_nodup out k vs hnd hmem
    have hv := valuesUnder_foldl (okPairs csm hsm errs) [] k
    rw [← hout] at hv
    rw [hl] at hv
    simpa [alookup] using hv
  · intro p hp
    have hkmem : p.1 ∈ out.map Prod.fst := by
      rw [hout]
      exact (keys_foldl_mem _ [] p.1).mpr
        (Or.inr (List.mem_map.mpr ⟨p, hp, rfl⟩))
    rcases List.mem_map.mp hkmem with ⟨⟨k, vs⟩, hkvs, hke⟩
    simp only at hke
    subst hke
    refine ⟨vs, hkvs, ?_⟩
    have hl : alookup p.1 out = some vs :=
      alookup_eq_of_mem_of_nodup out p.1 vs hnd hkvs
    have hv := valuesUnder_foldl (okPairs csm hsm errs) [] p.1
    rw [← hout, hl] at hv
    simp only [alookup, Option.getD_some, Option.getD_none, List.nil_append] at hv
    rw [hv]
    simp only [List.mem_map]
    refine ⟨p, ?_, rfl⟩
    rw [List.mem_filter]
    exact ⟨hp, by simp⟩

/-- Witness for claim C3: three structurally identical type errors at
`items/0`, `items/1`, `items/2` collapse into exactly one entry, under the
JSON-encoded key, carrying three value occurrences. -/
theorem claim_C3_witness :
    get_schema_validation_errors (fun _ => none) (fun _ => none)
        [⟨"type", Json.str "string", "m", [Seg.s "items", Seg.i 0], Json.num 3, false⟩,
         ⟨"type", Json.str "string", "m", [Seg.s "items", Seg.i 1], Json.num 3, false⟩,
         ⟨"type", Json.str "string", "m", [Seg.s "items", Seg.i 2], Json.num 3, false⟩] =
      .ok [("[\"string\", \"Value is not a string\", \"items\"]",
            [{ path := "items/0", value := some (Json.num 3) },
             { path := "items/1", value := some (Json.num 3) },
             { path := "items/2", value := some (Json.num 3) }])] ∧
    [({ path := "items/0", value := some (Json.num 3) } : ValueRec),
     { path := "items/1", value := some (Json.num 3) },
     { path := "items/2", value := some (Json.num 3) }] =
      ((okPairs (fun _ => none) (fun _ => none)
          [⟨"type", Json.str "string", "m", [Seg.s "items", Seg.i 0], Json.num 3, false⟩,
           ⟨"type", Json.str "string", "m", [Seg.s "items", Seg.i 1], Json.num 3, false⟩,
           ⟨"type", Json.str "string", "m", [Seg.s "items", Seg.i 2], Json.num 3, false⟩]).filter
        (fun p => decide (p.1 = "[\"string\", \"Value is not a string\", \"items\"]"))).map
        Prod.snd := by
  refine ⟨rfl, ?_⟩
  have h := claim_C3 (fun _ => none) (fun _ => none)
    [⟨"type", Json.str "string", "m", [Seg.s "items", Seg.i 0], Json.num 3, false⟩,
     ⟨"type", Json.str "string", "m", [Seg.s "items", Seg.i 1], Json.num 3, false⟩,
     ⟨"type", Json.str "string", "m", [Seg.s "items", Seg.i 2], Json.num 3, false⟩]
    [("[\"string\", \"Value is not a string\", \"items\"]",
      [{ path := "items/0", value := some (Json.num 3) },
       { path := "items/1", value := some (Json.num 3) },
       { path := "items/2", value := some (Json.num 3) }])] rfl
  exact h.2.1 "[\"string\", \"Value is not a string\", \"items\"]"
    [{ path := "items/0", value := some (Json.num 3) },
     { path := "items/1", value := some (Json.num 3) },
     { path := "items/2", value := some (Json.num 3) }]
    (List.mem_singleton.mpr rfl)

/-- Stable insertion of `x` into a list sorted by the strict comparison `lt`:
`x` goes before the first element not strictly below it (Python `sorted` is
stable; any stable sort yields the same list). -/
def insertSorted {α : Type} (lt : α → α → Bool) (x : α) : List α → List α
  | [] => [x]
  | y :: rest => if lt y x then y :: insertSorted lt x rest else x :: y :: rest

/-- Stable sort by the strict comparison `lt` (Python `sorted`). -/
def insertionSort {α : Type} (lt : α → α → Bool) : List α → List α
  | [] => []
  | x :: rest => insertSorted lt x (insertionSort lt rest)

theorem odSet_cons_eq {α β : Type} [DecidableEq α] (k'' : α) (v'' : β)
    (rest : List (α × β)) (k : α) (v : β) (h : k'' = k) :
    odSet ((k'', v'') :: rest) k v = (k, v) :: rest := by
  simp [odSet, h]

theorem odSet_cons_ne {α β : Type} [DecidableEq α] (k'' : α) (v'' : β)
    (rest : List (α × β)) (k : α) (v : β) (h : ¬ k'' = k) :
    odSet ((k'', v'') :: rest) k v = (k'', v'') :: odSet rest k v := by
  simp [odSet, h]

/-- Lexicographic comparison of char lists by code point: Python `a < b` on
strings. -/
def strLtChars : List Char → List Char → Bool
  | [], [] => false
  | [], _ :: _ => true
  | _ :: _, [] => false
  | c :: cs, d :: ds => if c < d then true else if d < c then false else strLtChars cs ds

/-- Python `a < b` on strings. -/
def pyStrLt (a b : String) : Bool := strLtChars a.data b.data

theorem strLtChars_nil_right : ∀ a, strLtChars a [] = false
  | [] => rfl
  | _ :: _ => rfl

theorem strLtChars_asymm : ∀ a b, strLtChars a b = true → strLtChars b a = false
  | [], [], h => by simpa [strLtChars] using h
  | [], _ :: _, _ => strLtChars_nil_right _
  | _ :: _, [], h => by simpa [strLtChars] using h
  | c :: cs, d :: ds, h => by
      simp only [strLtChars] at h ⊢
      by_cases h1 : c < d
      · rw [if_neg (lt_asymm h1), if_pos h1]
      · rw [if_neg h1] at h
        by_cases h2 : d < c
        · rw [if_pos h2] at h
          cases h
        · rw [if_neg h2] at h
          rw [if_neg h2, if_neg h1]
          exact strLtChars_asymm cs ds h

theorem strLtChars_negtrans : ∀ a b c, strLtChars a b = false → strLtChars b c = false →
    strLtChars a c = false
  | a, b, [], _, _ => strLtChars_nil_right a
  | a, [], _ :: _, h1, h2 => by simpa [strLtChars] using h2
  | [], _ :: _, _ :: _, h1, _ => by simpa [strLtChars] using h1
  | x :: xs, y :: ys, z :: zs, h1, h2 => by
      simp only [strLtChars] at h1 h2 ⊢
      by_cases hxy : x < y
      · rw [if_pos hxy] at h1
        cases h1
      · rw [if_neg hxy] at h1
        by_cases hyz : y < z
        · rw [if_pos hyz] at h2
          cases h2
        · rw [if_neg hyz] at h2
          have hxz : ¬ x < z := not_lt.mpr (le_trans (not_lt.mp hyz) (not_lt.mp hxy))
          rw [if_neg hxz]
          by_cases hyx : y < x
          · have hzx : z < x := lt_of_le_of_lt (not_lt.mp hyz) hyx
            rw [if_pos hzx]
          · rw [if_neg hyx] at h1
            by_cases hzy : z < y
            · have hzx : z < x := lt_of_lt_of_le hzy (not_lt.mp hxy)
              rw [if_pos hzx]
            · rw [if_neg hzy] at h2
              have hxey : x = y := le_antisymm (not_lt.mp hyx) (not_lt.mp hxy)
              have hyez : y = z := le_antisymm (not_lt.mp hzy) (not_lt.mp hyz)
              have hzx : ¬ z < x := by
                rw [hxey, hyez]
                exact lt_irrefl z
              rw [if_neg hzx]
              exact strLtChars_negtrans xs ys zs h1 h2

theorem pyStrLt_asymm (a b : String) (h : pyStrLt a b = true) : pyStrLt b a = false :=
  strLtChars_asymm a.data b.data h

theorem pyStrLt_negtrans (a b c : String) (h1 : pyStrLt a b = false)
    (h2 : pyStrLt b c = false) : pyStrLt a c = false :=
  strLtChars_negtrans a.data b.data c.data h1 h2

theorem mem_insertSorted {α : Type} (lt : α → α → Bool) (x a : α) (l : List α) :
    a ∈ insertSorted lt x l ↔ a = x ∨ a ∈ l := by
  induction l with
  | nil => simp [insertSorted]
  | cons y rest ih =>
      simp only [insertSorted]
      split
      · rw [List.mem_cons, ih, List.mem_cons]
        tauto
      · rw [List.mem_cons]

theorem mem_insertionSort {α : Type} (lt : α → α → Bool) (a : α) (l : List α) :
    a ∈ insertionSort lt l ↔ a ∈ l := by
  induction l with
  | nil => simp [insertionSort]
  | cons x rest ih =>
      simp only [insertionSort]
      rw [mem_insertSorted, ih, List.mem_cons]

theorem insertSorted_pairwise_lt {α : Type} (lt : α → α → Bool)
    (hasym : ∀ a b, lt a b = true → lt b a = false)
    (hnt : ∀ a b c, lt a b = false → lt b c = false → lt a c = false)
    (x : α) (l : List α) (hl : l.Pairwise (fun a b => lt b a = false)) :
    (insertSorted lt x l).Pairwise (fun a b => lt b a = false) := by
  induction l with
  | nil => simp [insertSorted]
  | cons y rest ih =>
      rcases List.pairwise_cons.mp hl with ⟨hy, hrest⟩
      simp only [insertSorted]
      split
      · next hlt =>
          refine List.pairwise_cons.mpr ⟨?_, ih hrest⟩
          intro a ha
          rcases (mem_insertSorted _ x a rest).mp ha with rfl | ha'
          · exact hasym y a hlt
          · exact hy a ha'
      · next hnlt =>
          have hyx : lt y x = false := by
            rw [Bool.not_eq_true] at hnlt
            exact hnlt
          refine List.pairwise_cons.mpr ⟨?_, hl⟩
          intro a ha
          rcases List.mem_cons.mp ha with rfl | ha'
          · exact hyx
          · exact hnt a y x (hy a ha') hyx

theorem insertionSort_pairwise_lt {α : Type} (lt : α → α → Bool)
    (hasym : ∀ a b, lt a b = true → lt b a = false)
    (hnt : ∀ a b c, lt a b = false → lt b c = false → lt a c = false)
    (l : List α) :
    (insertionSort lt l).Pairwise (fun a b => lt b a = false) := by
  induction l with
  | nil => simp [insertionSort]
  | cons x rest ih => exact insertSorted_pairwise_lt lt hasym hnt x _ ih

theorem mem_odSet_keys {α β : Type} [DecidableEq α] (l : List (α × β)) (k k' : α) (v : β) :
    k ∈ (odSet l k' v).map Prod.fst ↔ k ∈ l.map Prod.fst ∨ k = k' := by
  induction l with
  | nil => simp [odSet]
  | cons kv rest ih =>
      rcases kv with ⟨k'', v''⟩
      by_cases h : k'' = k'
      · rw [odSet_cons_eq k'' v'' rest k' v h]
        subst h
        simp only [List.map_cons, List.mem_cons]
        tauto
      · rw [odSet_cons_ne k'' v'' rest k' v h]
        simp only [List.map_cons, List.mem_cons, ih]
        tauto

theorem mem_odSet {α β : Type} [DecidableEq α] (l : List (α × β)) (k : α) (v : β)
    (p : α × β) (hp : p ∈ odSet l k v) : p ∈ l ∨ p = (k, v) := by
  induction l with
  | nil => simpa [odSet] using hp
  | cons kv rest ih =>
      rcases kv with ⟨k'', v''⟩
      by_cases h : k'' = k
      · rw [odSet_cons_eq k'' v'' rest k v h] at hp
        rcases List.mem_cons.mp hp with rfl | hp
        · exact Or.inr rfl
        · exact Or.inl (List.mem_cons_of_mem _ hp)
      · rw [odSet_cons_ne k'' v'' rest k v h] at hp
        rcases List.mem_cons.mp hp with rfl | hp
        · exact Or.inl (List.mem_cons_self _ _)
        · rcases ih hp with hm | he
          · exact Or.inl (List.mem_cons_of_mem _ hm)
          · exact Or.inr he

theorem odSet_keys_sublist {α β : Type} [DecidableEq α] (l : List (α × β)) (k : α) (v : β) :
    List.Sublist ((odSet l k v).map Prod.fst) (l.map Prod.fst ++ [k]) := by
  induction l with
  | nil => simp [odSet]
  | cons kv rest ih =>
      rcases kv with ⟨k'', v''⟩
      by_cases h : k'' = k
      · rw [odSet_cons_eq k'' v'' rest k v h]
        subst h
        simp only [List.map_cons, List.cons_append]
        exact List.Sublist.cons₂ _ (List.sublist_append_left _ _)
      · rw [odSet_cons_ne k'' v'' rest k v h]
        simp only [List.map_cons, List.cons_append]
        exact List.Sublist.cons₂ _ ih

/-- One value of the `_get_json_data_generic_paths` dictionary: a dict of
concrete path ↦ leaf value, or the `{}` / `[]` marker recorded for an empty
container (note the source records those markers under the concrete path). -/
inductive GPEntry where
  | leafMap (occ : List (List Seg × Json)) : GPEntry
  | emptyObj : GPEntry
  | emptyArr : GPEntry
deriving DecidableEq, Repr

/-- `tuple(i for i in path if type(i) != int)`. -/
def stripInts (p : List Seg) : List Seg := p.filter (fun sg => !isIntSeg sg)

/-- Record one scalar leaf: append the concrete occurrence under the generic
key when that key already holds a truthy dict (`if
generic_paths.get(generic_key):`), else start a fresh one-entry dict there
(overwriting a falsy empty-container marker in place). -/
def gmLeaf (gm : List (List Seg × GPEntry)) (ck : List Seg) (v : Json) :
    List (List Seg × GPEntry) :=
  let gk := stripInts ck
  match alookup gk gm with
  | some (.leafMap occ) =>
      if occ.isEmpty then odSet gm gk (.leafMap [(ck, v)])
      else odSet gm gk (.leafMap (odSet occ ck v))
  | some _ => odSet gm gk (.leafMap [(ck, v)])
  | none => odSet gm gk (.leafMap [(ck, v)])

mutual

/-- The recursion of `_get_json_data_generic_paths` (common.py:490) over one
dict-or-list value at its concrete path: empty containers record themselves
(under the concrete path), dict entries and list elements recurse, scalars
record a leaf under their int-stripped generic key. -/
def gpVal : Json → List Seg → List (List Seg × GPEntry) → List (List Seg × GPEntry)
  | .obj kvs, p, gm => if kvs.isEmpty then odSet gm p .emptyObj else gpEntries kvs p gm
  | .arr xs, p, gm => if xs.isEmpty then odSet gm p .emptyArr else gpArr xs 0 p gm
  | v, p, gm => gmLeaf gm p v

def gpEntries : List (String × Json) → List Seg → List (List Seg × GPEntry) →
    List (List Seg × GPEntry)
  | [], _, gm => gm
  | (k, v) :: rest, path, gm => gpEntries rest path (gpVal v (path ++ [.s k]) gm)

def gpArr : List Json → Nat → List Seg → List (List Seg × GPEntry) →
    List (List Seg × GPEntry)
  | [], _, _, gm => gm
  | x :: rest, n, path, gm => gpArr rest (n + 1) path (gpVal x (path ++ [.i n]) gm)

end

/-- `_get_json_data_generic_paths(json_data)` for a dict root (the
deprecated-fields caller passes the parsed package dict; a non-dict root
would raise in Python). -/
def _get_json_data_generic_paths (json_data : List (String × Json)) :
    List (List Seg × GPEntry) :=
  if json_data.isEmpty then [([], .emptyObj)] else gpEntries json_data [] []

/-- `paths_in_data[generic_path[0]].keys()`: the concrete occurrence paths of
an index entry; `[].keys()` on an empty-list marker raises AttributeError
(`none`). -/
def keysOfEntry : GPEntry → Option (List (List Seg))
  | .leafMap occ => some (occ.map Prod.fst)
  | .emptyObj => some []
  | .emptyArr => none

/-- One output entry of `get_json_data_deprecated_fields`. -/
structure DeprecatedFieldEntry where
  paths : List String
  explanation : String × String
deriving DecidableEq, Repr

/-- `tup[0][-1]`: the field name of a deprecated schema path (always
nonempty in the source, where paths come from schema properties). -/
def depLastName (p : List String) : String := p.getLastD ""

/-- Python `tuple <` on paths: elementwise, shorter-is-smaller; an int never
meets a string at the same position for paths of one document (Python would
raise there; ints are ordered below strings to stay total). -/
def segLt : Seg → Seg → Bool
  | .i a, .i b => a < b
  | .s a, .s b => pyStrLt a b
  | .i _, .s _ => true
  | .s _, .i _ => false

def pathLt : List Seg → List Seg → Bool
  | [], [] => false
  | [], _ :: _ => true
  | _ :: _, [] => false
  | a :: as, b :: bs => if segLt a b then true else if segLt b a then false else pathLt as bs

/-- The first loop of `get_json_data_deprecated_fields` (common.py:539):
iterate the presence-filtered deprecated paths in field-name order, building
an OrderedDict field-name ↦ (concrete occurrence paths, explanation);
`none` models the AttributeError on an empty-list marker. -/
def buildDeprecatedFields (pid : List (List Seg × GPEntry)) :
    List (List String × (String × String)) →
    List (String × (List (List Seg) × (String × String))) →
      Option (List (String × (List (List Seg) × (String × String))))
  | [], acc => some acc
  | d :: rest, acc =>
      match alookup (d.1.map Seg.s) pid with
      | none => none
      | some e =>
          match keysOfEntry e with
          | none => none
          | some ks => buildDeprecatedFields pid rest (odSet acc (depLastName d.1) (ks, d.2))

/-- `get_json_data_deprecated_fields` (common.py:530): index the document,
keep the deprecated schema paths whose generic path is a key of the index,
sort them by field name (stably, as Python `sorted`), and map each kept field
to the slash-joined parents of its sorted concrete occurrence paths plus the
(version, description) explanation. -/
def get_json_data_deprecated_fields
    (deprecated_schema_paths : List (List String × (String × String)))
    (json_data : List (String × Json)) :
    Option (List (String × DeprecatedFieldEntry)) :=
  let paths_in_data := _get_json_data_generic_paths json_data
  let dpid := deprecated_schema_paths.filter
      (fun d => (alookup (d.1.map Seg.s) paths_in_data).isSome)
  let sorted := insertionSort (fun a b => pyStrLt (depLastName a.1) (depLastName b.1)) dpid
  match buildDeprecatedFields paths_in_data sorted [] with
  | none => none
  | some df =>
      some (df.map (fun fe =>
        (fe.1, { paths := (insertionSort pathLt fe.2.1).map
                   (fun sp => joinSlash (sp.dropLast.map segToStr)),
                 explanation := fe.2.2 })))

theorem buildDF_keys_mem (pid : List (List Seg × GPEntry)) :
    ∀ (ds : List (List String × (String × String)))
      (acc df : List (String × (List (List Seg) × (String × String)))),
      buildDeprecatedFields pid ds acc = some df →
      ∀ f, f ∈ df.map Prod.fst ↔
        f ∈ acc.map Prod.fst ∨ ∃ d ∈ ds, depLastName d.1 = f := by
  intro ds
  induction ds with
  | nil =>
      intro acc df h f
      simp only [buildDeprecatedFields] at h
      cases h
      simp
  | cons d rest ih =>
      intro acc df h f
      simp only [buildDeprecatedFields] at h
      split at h
      · cases h
      · split at h
        · cases h
        · next ks hks =>
              rw [ih _ _ h f, mem_odSet_keys]
              constructor
              · rintro ((ha | rfl) | ⟨d', hd', rfl⟩)
                · exact Or.inl ha
                · exact Or.inr ⟨d, List.mem_cons_self _ _, rfl⟩
                · exact Or.inr ⟨d', List.mem_cons_of_mem _ hd', rfl⟩
              · rintro (ha | ⟨d', hd', rfl⟩)
                · exact Or.inl (Or.inl ha)
                · rcases List.mem_cons.mp hd' with rfl | hd''
                  · exact Or.inl (Or.inr rfl)
                  · exact Or.inr ⟨d', hd'', rfl⟩

theorem buildDF_keys_sublist (pid : List (List Seg × GPEntry)) :
    ∀ (ds : List (List String × (String × String)))
      (acc df : List (String × (List (List Seg) × (String × String)))),
      buildDeprecatedFields pid ds acc = some df →
      List.Sublist (df.map Prod.fst)
        (acc.map Prod.fst ++ ds.map (fun d => depLastName d.1)) := by
  intro ds
  induction ds with
  | nil =>
      intro acc df h
      simp only [buildDeprecatedFields] at h
      cases h
      simp
  | cons d rest ih =>
      intro acc df h
      simp only [buildDeprecatedFields] at h
      split at h
      · cases h
      · split at h
        · cases h
        · next ks hks =>
              have hsub := ih _ _ h
              have hstep := odSet_keys_sublist acc (depLastName d.1) (ks, d.2)
              have hstep2 := List.Sublist.append_right hstep
                (rest.map (fun d => depLastName d.1))
              have := List.Sublist.trans hsub hstep2
              simpa [List.append_assoc] using this

theorem buildDF_mem (pid : List (List Seg × GPEntry)) :
    ∀ (ds : List (List String × (String × String)))
      (acc df : List (String × (List (List Seg) × (String × String)))),
      buildDeprecatedFields pid ds acc = some df →
      ∀ p ∈ df, p ∈ acc ∨ ∃ d ∈ ds, ∃ e ks,
        alookup (d.1.map Seg.s) pid = some e ∧ keysOfEntry e = some ks ∧
        p = (depLastName d.1, (ks, d.2)) := by
  intro ds
  induction ds with
  | nil =>
      intro acc df h p hp
      simp only [buildDeprecatedFields] at h
      cases h
      exact Or.inl hp
  | cons d rest ih =>
      intro acc df h p hp
      simp only [buildDeprecatedFields] at h
      split at h
      · cases h
      · next e h1 =>
          split at h
          · cases h
          · next ks h2 =>
              rcases ih _ _ h p hp with hacc | ⟨d', hd', e', ks', he', hks', rfl⟩
              · rcases mem_odSet acc (depLastName d.1) (ks, d.2) p hacc with hacc' | rfl
                · exact Or.inl hacc'
                · exact Or.inr ⟨d, List.mem_cons_self _ _, e, ks, h1, h2, rfl⟩
              · exact Or.inr ⟨d', List.mem_cons_of_mem _ hd', e', ks', he', hks', rfl⟩

/-- Claim C7 (amended): the deprecated-field cross-reference keeps exactly
those deprecated schema paths whose generic path occurs as a key of the
indexed data; the output is ordered by field name (last path segment); each
entry carries the slash-joined concrete parent paths of the field's
occurrences, listed in the sorted order of the concrete paths but NOT
de-duplicated (several occurrences may share a parent), plus the
(version, description) explanation. -/
theorem claim_C7 (deps : List (List String × (String × String)))
    (json_data : List (String × Json))
    (hne : ∀ d ∈ deps, d.1 ≠ [])
    (out : List (String × DeprecatedFieldEntry))
    (hout : get_json_data_deprecated_fields deps json_data = some out) :
    (∀ f, f ∈ out.map Prod.fst ↔
       ∃ d ∈ deps,
         (alookup (d.1.map Seg.s) (_get_json_data_generic_paths json_data)).isSome ∧
         depLastName d.1 = f) ∧
    (out.map Prod.fst).Pairwise (fun a b => pyStrLt b a = false) ∧
    (∀ fe ∈ out, ∃ d ∈ deps, depLastName d.1 = fe.1 ∧ fe.2.explanation = d.2 ∧
       ∃ e ks,
         alookup (d.1.map Seg.s) (_get_json_data_generic_paths json_data) = some e ∧
         keysOfEntry e = some ks ∧
         fe.2.paths = (insertionSort pathLt ks).map
           (fun sp => joinSlash (sp.dropLast.map segToStr))) := by
  unfold get_json_data_deprecated_fields at hout
  simp only at hout
  match hb : buildDeprecatedFields (_get_json_data_generic_paths json_data)
      (insertionSort (fun a b => pyStrLt (depLastName a.1) (depLastName b.1))
        (deps.filter (fun d =>
          (alookup (d.1.map Seg.s) (_get_json_data_generic_paths json_data)).isSome))) []
    with
  | none =>
      rw [hb] at hout
      cases hout
  | some df =>
      rw [hb] at hout
      cases hout
      have hkeys : (df.map (fun fe => (fe.1,
          ({ paths := (insertionSort pathLt fe.2.1).map
               (fun sp => joinSlash (sp.dropLast.map segToStr)),
             explanation := fe.2.2 } : DeprecatedFieldEntry)))).map Prod.fst
          = df.map Prod.fst := by
        rw [List.map_map]
        rfl
      refine ⟨?_, ?_, ?_⟩
      · intro f
        rw [hkeys, buildDF_keys_mem _ _ _ _ hb f]
        simp only [List.map_nil, List.not_mem_nil, false_or]
        constructor
        · rintro ⟨d, hd, rfl⟩
          rw [mem_insertionSort] at hd
          rcases List.mem_filter.mp hd with ⟨hdeps, hsome⟩
          exact ⟨d, hdeps, by simpa using hsome, rfl⟩
        · rintro ⟨d, hdeps, hsome, rfl⟩
          refine ⟨d, ?_, rfl⟩
          rw [mem_insertionSort]
          exact List.mem_filter.mpr ⟨hdeps, by simpa using hsome⟩
      · rw [hkeys]
        have hsorted := insertionSort_pairwise_lt
          (fun a b => pyStrLt (depLastName a.1) (depLastName b.1))
          (fun a b h => pyStrLt_asymm (depLastName a.1) (depLastName b.1) h)
          (fun a b c h1 h2 =>
            pyStrLt_negtrans (depLastName a.1) (depLastName b.1) (depLastName c.1) h1 h2)
          (deps.filter (fun d =>
            (alookup (d.1.map Seg.s) (_get_json_data_generic_paths json_data)).isSome))
        have hmap : ((insertionSort (fun a b => pyStrLt (depLastName a.1) (depLastName b.1))
            (deps.filter (fun d =>
              (alookup (d.1.map Seg.s) (_get_json_data_generic_paths json_data)).isSome))).map
            (fun d => depLastName d.1)).Pairwise (fun a b => pyStrLt b a = false) := by
          exact List.Pairwise.map _ (fun a b h => h) hsorted
        have hsub := buildDF_keys_sublist _ _ _ _ hb
        simp only [List.map_nil, List.nil_append] at hsub
        exact List.Pairwise.sublist hsub hmap
      · intro fe hfe
        rcases List.mem_map.mp hfe with ⟨p, hp, rfl⟩
        rcases buildDF_mem _ _ _ _ hb p hp with hnil | ⟨d, hd, e, ks, he, hks, rfl⟩
        · simp at hnil
        · rw [mem_insertionSort] at hd
          rcases List.mem_filter.mp hd with ⟨hdeps, _⟩
          exact ⟨d, hdeps, rfl, rfl, e, ks, he, hks, rfl⟩

/-- Counterexample to claim C7 as stated: for a deprecated array-of-scalars
field `legacy` with data `{"legacy": ["a","b"]}`, the entry's parent-path
tuple is `("legacy", "legacy")` — the slash-joined concrete parent paths are
NOT de-duplicated. -/
theorem claim_C7_counterexample :
    get_json_data_deprecated_fields [(["legacy"], ("1.1", "use newField"))]
        [("legacy", Json.arr [Json.str "a", Json.str "b"])] =
      some [("legacy", { paths := ["legacy", "legacy"],
                         explanation := ("1.1", "use newField") })] ∧
    ¬ (["legacy", "legacy"] : List String).Nodup := by
  exact ⟨rfl, by decide⟩

/-- Witness for claim C7 at the spec example: `legacyField` under two
different array parents yields one entry whose path list has exactly the two
parents, and the output is ordered by field name. -/
theorem claim_C7_witness :
    get_json_data_deprecated_fields [(["items", "legacyField"], ("1.1", "use newField"))]
        [("items", Json.arr [Json.obj [("legacyField", Json.str "a")],
                             Json.obj [("legacyField", Json.str "b")]])] =
      some [("legacyField", { paths := ["items/0", "items/1"],
                              explanation := ("1.1", "use newField") })] ∧
    (([("legacyField", ({ paths := ["items/0", "items/1"],
                          explanation := ("1.1", "use newField") } : DeprecatedFieldEntry))]).map
        Prod.fst).Pairwise (fun a b => pyStrLt b a = false) := by
  refine ⟨rfl, ?_⟩
  exact (claim_C7 [(["items", "legacyField"], ("1.1", "use newField"))]
    [("items", Json.arr [Json.obj [("legacyField", Json.str "a")],
                         Json.obj [("legacyField", Json.str "b")]])]
    (by intro d hd
        rcases List.mem_cons.mp hd with rfl | h
        · simp
        · simp at h)
    [("legacyField", { paths := ["items/0", "items/1"],
                       explanation := ("1.1", "use newField") })] rfl).2.1
